import Mathlib

/-!
Verification of the Canvas-quiz → PrairieLearn conversion pipeline
(`src/pl_tools/canvas.py`) against its natural-language specification.

The Python source is shallowly embedded: pure fragments become Lean
functions, the stateful conversion loop becomes an explicit fold over the
question list, machine floats become exact rationals, text becomes lists
of characters, and the external collaborators (HTTP fetcher, operator
prompt, filesystem) become explicit function arguments or accumulated
output lists, exactly as the spec's §1 describes them as interfaces.
-/

namespace PLTools

/-! ## Text as character lists, with Python string primitives -/

/-- Question bodies and markup are modelled as lists of characters. -/
abbrev Str := List Char

/-- If `pat` is a prefix of `s`, returns `s` with that prefix removed. -/
def dropPrefixCh : Str → Str → Option Str
  | [], s => some s
  | _ :: _, [] => none
  | p :: ps, c :: cs => if p = c then dropPrefixCh ps cs else none

theorem dropPrefixCh_length : ∀ (pat s t : Str), dropPrefixCh pat s = some t →
    t.length + pat.length = s.length := by
  intro pat
  induction pat with
  | nil =>
    intro s t h
    simp [dropPrefixCh] at h
    simp [h]
  | cons p ps ih =>
    intro s t h
    cases s with
    | nil => simp [dropPrefixCh] at h
    | cons c cs =>
      simp only [dropPrefixCh] at h
      split at h
      · have := ih cs t h
        simp only [List.length_cons]
        omega
      · exact absurd h (by simp)

/-- Python's `str.replace(pat, repl)`: replaces every non-overlapping
occurrence of `pat`, scanning left to right. -/
def pyReplaceAll (pat repl : Str) (s : Str) : Str :=
  match s with
  | [] => []
  | c :: rest =>
    match h : dropPrefixCh pat (c :: rest) with
    | some remaining =>
      if hp : pat = [] then c :: pyReplaceAll pat repl rest
      else repl ++ pyReplaceAll pat repl remaining
    | none => c :: pyReplaceAll pat repl rest
termination_by s.length
decreasing_by
  · simp
  · have hlen := dropPrefixCh_length pat (c :: rest) remaining h
    have hl : pat.length ≠ 0 := fun hz => hp (List.eq_nil_of_length_eq_zero hz)
    simp only [List.length_cons] at hlen ⊢
    omega
  · simp

/-- Python's `str.replace(pat, repl, 1)`: replaces only the first
occurrence of `pat`, if any. -/
def pyReplaceFirst (pat repl : Str) (s : Str) : Str :=
  match s with
  | [] => []
  | c :: rest =>
    match dropPrefixCh pat (c :: rest) with
    | some remaining => repl ++ remaining
    | none => c :: pyReplaceFirst pat repl rest

/-! ## Numerical question rendering (canvas.py lines 442-468) -/

/-- One answer record of a `numerical_question`, with the fields the
renderer reads.  Canvas floats are embedded as exact rationals. -/
structure NumAnswer where
  numerical_answer_type : String
  exact : ℚ := 0
  margin : ℚ := 0
  start : ℚ := 0
  «end» : ℚ := 0
  approximate : ℚ := 0
  precision : ℕ := 0
deriving Repr, DecidableEq

/-- Python's `int()` on a rational: truncation toward zero. -/
def pyInt (q : ℚ) : ℤ :=
  if 0 ≤ q then ⌊q⌋ else ⌈q⌉

/-- The markup element emitted for a numerical question: the four
`template.write` branches of canvas.py lines 449-468, structurally. -/
inductive NumInput where
  | integerInput (correct : ℤ)
  | numberInput (correct : ℚ) (atol : ℚ)
  | sigfigInput (correct : ℚ) (digits : ℕ)
  | bareInput
deriving Repr, DecidableEq

/-- Renderer branch for `numerical_question` (canvas.py lines 442-468).
`pyInt` is Python's `int(answer["exact"])`; the final branch is the
operator-flagged fallback that writes a bare `pl-number-input`. -/
def renderNumerical (a : NumAnswer) : NumInput :=
  if a.numerical_answer_type = "exact_answer"
      ∧ |a.exact - (pyInt a.exact : ℚ)| < 1/1000
      ∧ a.margin = 0 then
    .integerInput (pyInt a.exact)
  else if a.numerical_answer_type = "exact_answer" then
    .numberInput a.exact a.margin
  else if a.numerical_answer_type = "range_answer" then
    let average := (a.«end» + a.start) / 2
    .numberInput average |a.«end» - average|
  else if a.numerical_answer_type = "precision_answer" then
    .sigfigInput a.approximate a.precision
  else
    .bareInput

/-! ## Question descriptor `info.json` (canvas.py lines 378-388) -/

/-- The content of a question's `info.json` descriptor, minus the
externally generated uuid. -/
structure InfoJson where
  type : String
  title : String
  topic : String
  tags : List String
  gradingMethod : Option String
deriving Repr, DecidableEq

/-- Builds the `info.json` object written at canvas.py lines 378-388:
`gradingMethod = "Manual"` exactly for `text_only_question` and
`essay_question`. -/
def infoJsonFor (question_type title topic : String) : InfoJson :=
  { type := "v3"
    title := title
    topic := topic
    tags := ["fromcanvas"]
    gradingMethod :=
      if question_type = "text_only_question" ∨ question_type = "essay_question"
      then some "Manual" else none }

/-! ## Fill-in-multiple-blanks rendering (canvas.py lines 482-493) -/

/-- An answer record of a `fill_in_multiple_blanks_question`. -/
structure BlankAnswer where
  blank_id : Str
  text : Str
deriving Repr, DecidableEq

/-- Groups the answers by `blank_id` in first-encounter order (the
`options` dict built at canvas.py lines 483-487). -/
def fibOptions (answers : List BlankAnswer) : List (Str × List BlankAnswer) :=
  answers.foldl
    (fun acc a =>
      if (acc.find? (fun p => p.1 = a.blank_id)).isSome then
        acc.map (fun p => if p.1 = a.blank_id then (p.1, p.2 ++ [a]) else p)
      else
        acc ++ [(a.blank_id, [a])])
    []

/-- The `pl-string-input` replacement string built for one blank
(canvas.py line 491): accepted value is the first answer for the blank,
compared space- and case-insensitively. -/
def fibInputFor (answer_id : Str) (answers : List BlankAnswer) : Str :=
  "<pl-string-input answers-name=\x22".data ++ answer_id
    ++ "\x22 correct-answer=\x22".data ++ ((answers.head?.map BlankAnswer.text).getD [])
    ++ "\x22 remove-spaces=\x22true\x22 ignore-case=\x22true\x22 display=\x22inline\x22></pl-string-input>".data

/-- What canvas.py lines 482-493 actually write for a
`fill_in_multiple_blanks_question`: the loop at lines 488-492 evaluates
`question_text.replace(...)` but never reassigns `question_text`
(Python strings are immutable), so the computed substitutions are
discarded and line 493 writes the original body unchanged, followed by
a newline. -/
def renderFillInMultipleBlanks (question_text : Str) (answers : List BlankAnswer) : Str :=
  let _discarded := (fibOptions answers).map
    (fun p => pyReplaceAll ("[".data ++ p.1 ++ "]".data) (fibInputFor p.1 p.2) question_text)
  question_text ++ "\n".data

/-- Modelled from the spec: the substitution the spec's §4.3 table (and
the claim) describe for `fill_in_multiple_blanks` — each `[blank_id]`
placeholder replaced by the per-blank string input.  This is what the
code would produce if line 489's `question_text.replace(...)` result
were assigned back to `question_text`, as the parallel
`multiple_dropdowns` branch at canvas.py line 521 does. -/
def renderFillInMultipleBlanksIntended (question_text : Str) (answers : List BlankAnswer) : Str :=
  ((fibOptions answers).foldl
    (fun text p => pyReplaceAll ("[".data ++ p.1 ++ "]".data) (fibInputFor p.1 p.2) text)
    question_text) ++ "\n".data

/-! ## Question/group reconciliation (`Quiz.questions`, canvas.py lines 135-180) -/

/-- A question record as it arrives on the wire, with the fields the
reconciler reads. -/
structure WireQuestion where
  id : ℕ
  quiz_group_id : Option ℕ
  points_possible : ℚ := 0
deriving Repr, DecidableEq

/-- A quiz group record as returned by the API. -/
structure GroupRec where
  position : ℕ
  question_points : ℚ := 0
  pick_count : ℕ := 1
deriving Repr, DecidableEq

/-- A question record after pass 1 annotated it with `position` and
(for group members) the group's `points_possible`. -/
structure AnnQuestion where
  id : ℕ
  quiz_group_id : Option ℕ
  points_possible : ℚ
  position : ℕ
deriving Repr, DecidableEq

/-- `Quiz.question_group` (canvas.py lines 139-144): a falsy group id
resolves to no group; otherwise the paginated API result, where an
absent or empty group record is modelled as `none`. -/
def questionGroup (fetch : ℕ → Option GroupRec) : Option ℕ → Option GroupRec
  | none => none
  | some gid => fetch gid

/-- The mutable state of the loop at canvas.py lines 148-166:
the `questions` dict (insertion-ordered), the `groups` cache
(insertion-ordered, truthy records only), and the counter `i`. -/
structure Pass1State where
  questions : List AnnQuestion
  groups : List (ℕ × GroupRec)
  counter : ℕ
deriving Repr, DecidableEq

/-- Lookup in the insertion-ordered `groups` cache. -/
def lookupGroup (gs : List (ℕ × GroupRec)) (gid : ℕ) : Option GroupRec :=
  (gs.find? (fun p => p.1 = gid)).map Prod.snd

/-- Python dict assignment `questions[question["id"]] = question`: an
existing key keeps its slot and gets the new value, a new key is
appended. -/
def dictInsert (qs : List AnnQuestion) (q : AnnQuestion) : List AnnQuestion :=
  if qs.any (fun r => r.id = q.id) then qs.map (fun r => if r.id = q.id then q else r)
  else qs ++ [q]

/-- One iteration of the loop at canvas.py lines 152-166: resolve the
question's group through the cache (fetching and caching on a miss), and
annotate the question either with the group's points and position or
with the next sequential counter value. -/
def pass1Step (fetch : ℕ → Option GroupRec) (st : Pass1State) (q : WireQuestion) : Pass1State :=
  match q.quiz_group_id with
  | some gid =>
    match lookupGroup st.groups gid with
    | some grp =>
      { st with questions :=
          dictInsert st.questions ⟨q.id, some gid, grp.question_points, grp.position⟩ }
    | none =>
      match fetch gid with
      | some grp =>
        { questions :=
            dictInsert st.questions ⟨q.id, some gid, grp.question_points, grp.position⟩
          groups := st.groups ++ [(gid, grp)]
          counter := st.counter }
      | none =>
        { st with
          questions :=
            dictInsert st.questions ⟨q.id, some gid, q.points_possible, st.counter⟩
          counter := st.counter + 1 }
  | none =>
    { st with
      questions :=
        dictInsert st.questions ⟨q.id, none, q.points_possible, st.counter⟩
      counter := st.counter + 1 }

/-- Pass 1 of `Quiz.questions` over the wire-ordered question records,
with the counter starting at 1 (canvas.py line 150). -/
def pass1 (fetch : ℕ → Option GroupRec) (wire : List WireQuestion) : Pass1State :=
  wire.foldl (pass1Step fetch) ⟨[], [], 1⟩

/-- The body of the loop at canvas.py lines 172-175: bump every
ungrouped question at or after the group's position. -/
def shiftStep (grp : GroupRec) (qs : List AnnQuestion) : List AnnQuestion :=
  qs.map (fun q =>
    if grp.position ≤ q.position ∧ q.quiz_group_id = none
    then { q with position := q.position + 1 } else q)

/-- Pass 2 of `Quiz.questions` (canvas.py lines 168-175): one shift per
distinct resolved group, in cache insertion order. -/
def shiftPass (groups : List (ℕ × GroupRec)) (qs : List AnnQuestion) : List AnnQuestion :=
  groups.foldl (fun qs p => shiftStep p.2 qs) qs

/-- The comparison key of canvas.py line 178. -/
def posLe (a b : AnnQuestion) : Bool := a.position ≤ b.position

/-- The comparison key of canvas.py line 179. -/
def gposLe (a b : ℕ × GroupRec) : Bool := a.2.position ≤ b.2.position

/-- `Quiz.questions` (canvas.py lines 146-180): pass 1, pass 2, then
both mappings sorted ascending by position (Python's `sorted` is a
stable mergesort). -/
def reconcile (fetch : ℕ → Option GroupRec) (wire : List WireQuestion) :
    List AnnQuestion × List (ℕ × GroupRec) :=
  let st := pass1 fetch wire
  ((shiftPass st.groups st.questions).mergeSort posLe, st.groups.mergeSort gposLe)

/-- The cumulative effect of pass 2 on a single ungrouped question's
position: one conditional `+1` per distinct resolved group. -/
def shiftFold (gs : List GroupRec) (p : ℕ) : ℕ :=
  gs.foldl (fun p g => if g.position ≤ p then p + 1 else p) p

theorem annQuestion_eta (q : AnnQuestion) :
    ({ id := q.id, quiz_group_id := q.quiz_group_id,
       points_possible := q.points_possible, position := q.position } : AnnQuestion) = q := rfl

/-- Pass 2 acts pointwise: every ungrouped question's position becomes
`shiftFold` of the distinct-group list, grouped questions are untouched. -/
theorem shiftPass_eq_map : ∀ (gs : List (ℕ × GroupRec)) (qs : List AnnQuestion),
    shiftPass gs qs = qs.map (fun q =>
      if q.quiz_group_id = none
      then { q with position := shiftFold (gs.map Prod.snd) q.position } else q) := by
  intro gs
  induction gs with
  | nil =>
    intro qs
    have hf : (fun (q : AnnQuestion) =>
        if q.quiz_group_id = none
        then { q with position := shiftFold (List.map Prod.snd ([] : List (ℕ × GroupRec))) q.position } else q)
        = id := by
      funext q
      simp only [shiftFold, List.map_nil, List.foldl_nil]
      split <;> rfl
    unfold shiftPass
    rw [List.foldl_nil, hf, List.map_id]
  | cons g gs ih =>
    intro qs
    have step : shiftPass (g :: gs) qs = shiftPass gs (shiftStep g.2 qs) := by
      simp [shiftPass]
    rw [step, ih, shiftStep, List.map_map]
    congr 1
    funext q
    by_cases hg : q.quiz_group_id = none
    · by_cases hp : g.2.position ≤ q.position
      · simp [Function.comp, hp, hg, shiftFold]
      · simp [Function.comp, hp, hg, shiftFold]
    · simp [Function.comp, hg]

/-! ### Pass-1 invariants -/

theorem dictInsert_fresh (qs : List AnnQuestion) (q : AnnQuestion)
    (h : ∀ r ∈ qs, r.id ≠ q.id) : dictInsert qs q = qs ++ [q] := by
  unfold dictInsert
  rw [if_neg]
  simp only [List.any_eq_true, not_exists, not_and]
  intro r hr
  simp [h r hr]

theorem lookupGroup_append_of_some (gs l : List (ℕ × GroupRec)) (gid : ℕ) (grp : GroupRec)
    (h : lookupGroup gs gid = some grp) : lookupGroup (gs ++ l) gid = some grp := by
  unfold lookupGroup at h ⊢
  cases hf : gs.find? (fun p => p.1 = gid) with
  | none => rw [hf] at h; simp at h
  | some p =>
    rw [hf] at h
    rw [List.find?_append, hf]
    simpa using h

theorem lookupGroup_eq_none_iff (gs : List (ℕ × GroupRec)) (gid : ℕ) :
    lookupGroup gs gid = none ↔ ∀ p ∈ gs, p.1 ≠ gid := by
  unfold lookupGroup
  simp [List.find?_eq_none]

theorem lookupGroup_mem (gs : List (ℕ × GroupRec)) (gid : ℕ) (grp : GroupRec)
    (h : lookupGroup gs gid = some grp) : (gid, grp) ∈ gs := by
  unfold lookupGroup at h
  cases hf : gs.find? (fun p => p.1 = gid) with
  | none => rw [hf] at h; simp at h
  | some p =>
    rw [hf] at h
    simp at h
    have hmem := List.mem_of_find?_eq_some hf
    have hpred := List.find?_some hf
    simp only [decide_eq_true_eq] at hpred
    have : p = (gid, grp) := by
      cases p
      simp_all
    rw [← this]
    exact hmem

theorem lookupGroup_append_self (gs : List (ℕ × GroupRec)) (gid : ℕ) (grp : GroupRec)
    (h : lookupGroup gs gid = none) : lookupGroup (gs ++ [(gid, grp)]) gid = some grp := by
  unfold lookupGroup at h ⊢
  rw [List.find?_append]
  cases hf : gs.find? (fun p => p.1 = gid) with
  | none => simp
  | some p => rw [hf] at h; simp at h

/-- Was this annotated question's position assigned by the sequential
counter?  True for ungrouped questions and for questions whose group id
does not resolve on the API. -/
def seqAssigned (fetch : ℕ → Option GroupRec) (q : AnnQuestion) : Bool :=
  match q.quiz_group_id with
  | none => true
  | some gid => (fetch gid).isNone

/-- The loop invariant of pass 1 (canvas.py lines 148-166). -/
def QInv (fetch : ℕ → Option GroupRec) (st : Pass1State) : Prop :=
  (∀ p ∈ st.groups, fetch p.1 = some p.2)
  ∧ (st.groups.map Prod.fst).Nodup
  ∧ 1 ≤ st.counter
  ∧ ((st.questions.filter (seqAssigned fetch)).map AnnQuestion.position
      = List.range' 1 (st.counter - 1))
  ∧ (∀ q ∈ st.questions, ∀ gid, q.quiz_group_id = some gid →
      ∀ grp, lookupGroup st.groups gid = some grp →
        q.position = grp.position ∧ q.points_possible = grp.question_points)
  ∧ (∀ q ∈ st.questions, ∀ gid, q.quiz_group_id = some gid →
      (lookupGroup st.groups gid).isSome ∨ fetch gid = none)

theorem QInv_init (fetch : ℕ → Option GroupRec) : QInv fetch ⟨[], [], 1⟩ := by
  unfold QInv
  refine ⟨by simp, by simp, le_refl 1, by simp, by simp, by simp⟩

theorem lookupGroup_append_cases (gs : List (ℕ × GroupRec)) (gid gid' : ℕ) (grp grp' : GroupRec)
    (h : lookupGroup (gs ++ [(gid, grp)]) gid' = some grp') :
    lookupGroup gs gid' = some grp'
    ∨ (lookupGroup gs gid' = none ∧ gid' = gid ∧ grp' = grp) := by
  unfold lookupGroup at h ⊢
  rw [List.find?_append] at h
  cases hf : gs.find? (fun p => p.1 = gid') with
  | some p => rw [hf] at h; left; simpa using h
  | none =>
    rw [hf] at h
    simp only [Option.none_or] at h
    right
    refine ⟨by simp, ?_, ?_⟩
    · by_cases hg : gid = gid'
      · exact hg.symm
      · simp [List.find?, hg] at h
    · by_cases hg : gid = gid'
      · subst hg
        simp [List.find?] at h
        exact h.symm
      · simp [List.find?, hg] at h

theorem pass1Step_inv (fetch : ℕ → Option GroupRec) (st : Pass1State) (q : WireQuestion)
    (hfresh : ∀ r ∈ st.questions, r.id ≠ q.id) (hinv : QInv fetch st) :
    QInv fetch (pass1Step fetch st q)
    ∧ (pass1Step fetch st q).questions.map AnnQuestion.id
        = st.questions.map AnnQuestion.id ++ [q.id]
    ∧ st.groups <+: (pass1Step fetch st q).groups := by
  obtain ⟨hsound, hnodup, hc1, hseq, hgpos, hcached⟩ := hinv
  match hq : q.quiz_group_id with
  | some gid =>
    match hl : lookupGroup st.groups gid with
    | some grp =>
      -- cache hit (canvas.py lines 153-154)
      have hfgid : fetch gid = some grp := hsound _ (lookupGroup_mem _ _ _ hl)
      have hstep : pass1Step fetch st q =
          { st with questions :=
              st.questions ++ [⟨q.id, some gid, grp.question_points, grp.position⟩] } := by
        simp only [pass1Step, hq, hl]
        rw [dictInsert_fresh _ _ hfresh]
      rw [hstep]
      refine ⟨⟨hsound, hnodup, hc1, ?_, ?_, ?_⟩, by simp, List.prefix_rfl⟩
      · rw [List.filter_append]
        have hnone : List.filter (seqAssigned fetch)
            [(⟨q.id, some gid, grp.question_points, grp.position⟩ : AnnQuestion)] = [] := by
          simp [seqAssigned, hfgid]
        rw [hnone, List.append_nil]
        exact hseq
      · intro r hr gid' hgid' grp' hlk'
        rcases List.mem_append.mp hr with hr | hr
        · exact hgpos r hr gid' hgid' grp' hlk'
        · simp only [List.mem_singleton] at hr
          subst hr
          simp only at hgid'
          have hg : gid = gid' := by injection hgid'
          subst hg
          rw [hl] at hlk'
          have : grp = grp' := by injection hlk'
          subst this
          exact ⟨rfl, rfl⟩
      · intro r hr gid' hgid'
        rcases List.mem_append.mp hr with hr | hr
        · exact hcached r hr gid' hgid'
        · simp only [List.mem_singleton] at hr
          subst hr
          simp only at hgid'
          have hg : gid = gid' := by injection hgid'
          subst hg
          left
          rw [hl]
          rfl
    | none =>
      match hf : fetch gid with
      | some grp =>
        -- cache miss, group resolves and is cached (canvas.py lines 156-158)
        have hstep : pass1Step fetch st q =
            { questions :=
                st.questions ++ [⟨q.id, some gid, grp.question_points, grp.position⟩]
              groups := st.groups ++ [(gid, grp)]
              counter := st.counter } := by
          simp only [pass1Step, hq, hl, hf]
          rw [dictInsert_fresh _ _ hfresh]
        rw [hstep]
        have hfree : ∀ p ∈ st.groups, p.1 ≠ gid := (lookupGroup_eq_none_iff _ _).mp hl
        refine ⟨⟨?_, ?_, hc1, ?_, ?_, ?_⟩, by simp, List.prefix_append _ _⟩
        · intro p hp
          rcases List.mem_append.mp hp with hp | hp
          · exact hsound p hp
          · simp only [List.mem_singleton] at hp
            subst hp
            exact hf
        · rw [List.map_append]
          simp only [List.map_cons, List.map_nil]
          rw [List.nodup_append]
          refine ⟨hnodup, List.nodup_singleton _, ?_⟩
          intro a ha hb
          simp only [List.mem_singleton] at hb
          subst hb
          obtain ⟨p, hp, hpa⟩ := List.mem_map.mp ha
          exact hfree p hp hpa
        · rw [List.filter_append]
          have hnone : List.filter (seqAssigned fetch)
              [(⟨q.id, some gid, grp.question_points, grp.position⟩ : AnnQuestion)] = [] := by
            simp [seqAssigned, hf]
          rw [hnone, List.append_nil]
          exact hseq
        · intro r hr gid' hgid' grp' hlk'
          rcases List.mem_append.mp hr with hro | hrn
          · rcases lookupGroup_append_cases _ _ _ _ _ hlk' with hold | ⟨hold, hgg, hgr⟩
            · exact hgpos r hro gid' hgid' grp' hold
            · subst hgg
              rcases hcached r hro _ hgid' with hsome | hnone
              · rw [hold] at hsome
                simp at hsome
              · rw [hf] at hnone
                simp at hnone
          · simp only [List.mem_singleton] at hrn
            subst hrn
            simp only at hgid'
            have hg : gid = gid' := by injection hgid'
            subst hg
            have hvnew : lookupGroup (st.groups ++ [(gid, grp)]) gid = some grp :=
              lookupGroup_append_self _ _ _ hl
            rw [hvnew] at hlk'
            have : grp = grp' := by injection hlk'
            subst this
            exact ⟨rfl, rfl⟩
        · intro r hr gid' hgid'
          rcases List.mem_append.mp hr with hr | hr
          · rcases hcached r hr gid' hgid' with hsome | hnone
            · left
              obtain ⟨grp'', hg''⟩ := Option.isSome_iff_exists.mp hsome
              rw [lookupGroup_append_of_some _ _ _ _ hg'']
              rfl
            · right
              exact hnone
          · simp only [List.mem_singleton] at hr
            subst hr
            simp only at hgid'
            have hg : gid = gid' := by injection hgid'
            subst hg
            left
            rw [lookupGroup_append_self _ _ _ hl]
            rfl
      | none =>
        -- cache miss, group absent/empty: sequential numbering (canvas.py lines 163-165)
        have hstep : pass1Step fetch st q =
            { st with
              questions :=
                st.questions ++ [⟨q.id, some gid, q.points_possible, st.counter⟩]
              counter := st.counter + 1 } := by
          simp only [pass1Step, hq, hl, hf]
          rw [dictInsert_fresh _ _ hfresh]
        rw [hstep]
        refine ⟨⟨hsound, hnodup, by show 1 ≤ st.counter + 1; omega, ?_, ?_, ?_⟩, by simp, List.prefix_rfl⟩
        · rw [List.filter_append]
          have hone : List.filter (seqAssigned fetch)
              [(⟨q.id, some gid, q.points_possible, st.counter⟩ : AnnQuestion)]
              = [⟨q.id, some gid, q.points_possible, st.counter⟩] := by
            simp [seqAssigned, hf]
          rw [hone, List.map_append, hseq]
          simp only [List.map_cons, List.map_nil]
          have : st.counter + 1 - 1 = (st.counter - 1) + 1 := by omega
          rw [this, List.range'_1_concat]
          have : 1 + (st.counter - 1) = st.counter := by omega
          rw [this]
        · intro r hr gid' hgid' grp' hlk'
          rcases List.mem_append.mp hr with hr | hr
          · exact hgpos r hr gid' hgid' grp' hlk'
          · simp only [List.mem_singleton] at hr
            subst hr
            simp only at hgid'
            have hg : gid = gid' := by injection hgid'
            subst hg
            rw [hl] at hlk'
            simp at hlk'
        · intro r hr gid' hgid'
          rcases List.mem_append.mp hr with hr | hr
          · exact hcached r hr gid' hgid'
          · simp only [List.mem_singleton] at hr
            subst hr
            simp only at hgid'
            have hg : gid = gid' := by injection hgid'
            subst hg
            right
            exact hf
  | none =>
    -- ungrouped: sequential numbering (canvas.py lines 163-165)
    have hstep : pass1Step fetch st q =
        { st with
          questions :=
            st.questions ++ [⟨q.id, none, q.points_possible, st.counter⟩]
          counter := st.counter + 1 } := by
      simp only [pass1Step, hq]
      rw [dictInsert_fresh _ _ hfresh]
    rw [hstep]
    refine ⟨⟨hsound, hnodup, by show 1 ≤ st.counter + 1; omega, ?_, ?_, ?_⟩, by simp, List.prefix_rfl⟩
    · rw [List.filter_append]
      have hone : List.filter (seqAssigned fetch)
          [(⟨q.id, none, q.points_possible, st.counter⟩ : AnnQuestion)]
          = [⟨q.id, none, q.points_possible, st.counter⟩] := by
        simp [seqAssigned]
      rw [hone, List.map_append, hseq]
      simp only [List.map_cons, List.map_nil]
      have : st.counter + 1 - 1 = (st.counter - 1) + 1 := by omega
      rw [this, List.range'_1_concat]
      have : 1 + (st.counter - 1) = st.counter := by omega
      rw [this]
    · intro r hr gid' hgid' grp' hlk'
      rcases List.mem_append.mp hr with hr | hr
      · exact hgpos r hr gid' hgid' grp' hlk'
      · simp only [List.mem_singleton] at hr
        subst hr
        simp at hgid'
    · intro r hr gid' hgid'
      rcases List.mem_append.mp hr with hr | hr
      · exact hcached r hr gid' hgid'
      · simp only [List.mem_singleton] at hr
        subst hr
        simp at hgid'

theorem pass1_loop_inv (fetch : ℕ → Option GroupRec) :
    ∀ (wire : List WireQuestion) (st : Pass1State),
    QInv fetch st →
    (∀ r ∈ st.questions, ∀ w ∈ wire, r.id ≠ w.id) →
    (wire.map WireQuestion.id).Nodup →
    QInv fetch (wire.foldl (pass1Step fetch) st)
    ∧ (wire.foldl (pass1Step fetch) st).questions.map AnnQuestion.id
        = st.questions.map AnnQuestion.id ++ wire.map WireQuestion.id
    ∧ st.groups <+: (wire.foldl (pass1Step fetch) st).groups := by
  intro wire
  induction wire with
  | nil =>
    intro st hinv _ _
    exact ⟨hinv, by simp, List.prefix_rfl⟩
  | cons w ws ih =>
    intro st hinv hfr hnd
    have hfresh : ∀ r ∈ st.questions, r.id ≠ w.id :=
      fun r hr => hfr r hr w (List.mem_cons_self w ws)
    obtain ⟨hinv', hids', hpre'⟩ := pass1Step_inv fetch st w hfresh hinv
    have hfr' : ∀ r ∈ (pass1Step fetch st w).questions, ∀ v ∈ ws, r.id ≠ v.id := by
      intro r hr v hv
      have hmemid : r.id ∈ (pass1Step fetch st w).questions.map AnnQuestion.id :=
        List.mem_map_of_mem _ hr
      rw [hids'] at hmemid
      rcases List.mem_append.mp hmemid with hmem | hmem
      · obtain ⟨r', hr', hre⟩ := List.mem_map.mp hmem
        rw [← hre]
        exact hfr r' hr' v (List.mem_cons_of_mem w hv)
      · simp only [List.mem_singleton] at hmem
        rw [hmem]
        simp only [List.map_cons, List.nodup_cons] at hnd
        intro hcontra
        exact hnd.1 (hcontra ▸ List.mem_map_of_mem WireQuestion.id hv)
    have hnd' : (ws.map WireQuestion.id).Nodup := by
      simp only [List.map_cons, List.nodup_cons] at hnd
      exact hnd.2
    obtain ⟨hinvf, hidsf, hpref⟩ := ih (pass1Step fetch st w) hinv' hfr' hnd'
    refine ⟨by simpa using hinvf, ?_, ?_⟩
    · rw [List.foldl_cons, hidsf, hids']
      simp
    · calc st.groups <+: (pass1Step fetch st w).groups := hpre'
        _ <+: (ws.foldl (pass1Step fetch) (pass1Step fetch st w)).groups := hpref

/-- Pass 1 establishes the loop invariant on a wire list with distinct
question ids. -/
theorem pass1_inv (fetch : ℕ → Option GroupRec) (wire : List WireQuestion)
    (hids : (wire.map WireQuestion.id).Nodup) :
    QInv fetch (pass1 fetch wire)
    ∧ (pass1 fetch wire).questions.map AnnQuestion.id = wire.map WireQuestion.id := by
  have := pass1_loop_inv fetch wire ⟨[], [], 1⟩ (QInv_init fetch) (by simp) hids
  exact ⟨this.1, by simpa using this.2.1⟩

theorem pass1Step_groups_prefix (fetch : ℕ → Option GroupRec) (st : Pass1State)
    (q : WireQuestion) : st.groups <+: (pass1Step fetch st q).groups := by
  cases hq : q.quiz_group_id with
  | none =>
    simp only [pass1Step, hq]
    exact List.prefix_rfl
  | some gid =>
    cases hl : lookupGroup st.groups gid with
    | some grp =>
      simp only [pass1Step, hq, hl]
      exact List.prefix_rfl
    | none =>
      cases hf : fetch gid with
      | some grp =>
        simp only [pass1Step, hq, hl, hf]
        exact List.prefix_append _ _
      | none =>
        simp only [pass1Step, hq, hl, hf]
        exact List.prefix_rfl

theorem foldl_groups_prefix (fetch : ℕ → Option GroupRec) :
    ∀ (ws : List WireQuestion) (st : Pass1State),
    st.groups <+: (ws.foldl (pass1Step fetch) st).groups := by
  intro ws
  induction ws with
  | nil => intro st; exact List.prefix_rfl
  | cons w ws ih =>
    intro st
    calc st.groups <+: (pass1Step fetch st w).groups := pass1Step_groups_prefix fetch st w
      _ <+: (ws.foldl (pass1Step fetch) (pass1Step fetch st w)).groups := ih _

theorem pass1_append (fetch : ℕ → Option GroupRec) (wire : List WireQuestion)
    (x : WireQuestion) :
    pass1 fetch (wire ++ [x]) = pass1Step fetch (pass1 fetch wire) x := by
  simp [pass1, List.foldl_append]

/-- Once a member of a resolvable group has been processed, the group is
in the cache with the fetched record. -/
theorem pass1_cache_of_member (fetch : ℕ → Option GroupRec) (wire : List WireQuestion)
    (gid : ℕ) (grp : GroupRec)
    (hids : (wire.map WireQuestion.id).Nodup)
    (hf : fetch gid = some grp)
    (hmem : ∃ y ∈ wire, y.quiz_group_id = some gid) :
    lookupGroup (pass1 fetch wire).groups gid = some grp := by
  obtain ⟨y, hy, hygid⟩ := hmem
  obtain ⟨w1, w2, rfl⟩ := List.append_of_mem hy
  have h1ids : (w1.map WireQuestion.id).Nodup := by
    refine List.Nodup.sublist ?_ hids
    exact List.Sublist.map _ (List.sublist_append_left _ _)
  have hinv1 : QInv fetch (pass1 fetch w1) := (pass1_inv fetch w1 h1ids).1
  set st1 := pass1 fetch w1 with hst1
  have hsplit : pass1 fetch (w1 ++ y :: w2) = w2.foldl (pass1Step fetch) (pass1Step fetch st1 y) := by
    rw [hst1]
    simp [pass1, List.foldl_append]
  have hcache2 : lookupGroup (pass1Step fetch st1 y).groups gid = some grp := by
    cases hl : lookupGroup st1.groups gid with
    | some grp0 =>
      have : fetch gid = some grp0 := hinv1.1 _ (lookupGroup_mem _ _ _ hl)
      rw [hf] at this
      have hgg : grp = grp0 := by injection this
      subst hgg
      obtain ⟨t, ht⟩ := pass1Step_groups_prefix fetch st1 y
      rw [← ht]
      exact lookupGroup_append_of_some _ _ _ _ hl
    | none =>
      have hstep : (pass1Step fetch st1 y).groups = st1.groups ++ [(gid, grp)] := by
        simp only [pass1Step, hygid, hl, hf]
      rw [hstep]
      exact lookupGroup_append_self _ _ _ hl
  obtain ⟨t, ht⟩ := foldl_groups_prefix fetch w2 (pass1Step fetch st1 y)
  rw [hsplit, ← ht]
  exact lookupGroup_append_of_some _ _ _ _ hcache2

/-- C2: in the reconciler, the pass-2 shift is applied exactly once per
distinct resolved group: (i) an additional member question of an
already-referenced group leaves the distinct-group list unchanged,
(ii) it also leaves every ungrouped question's shifted record unchanged
(a group with K members does not shift ungrouped questions by K), and
(iii) the reconciled questions are exactly the pass-1 records with every
ungrouped position increased by one for each distinct resolved group at
or below it (`shiftFold`), then sorted by position. -/
theorem c2_shift_once_per_distinct_group
    (fetch : ℕ → Option GroupRec) (wire : List WireQuestion)
    (x : WireQuestion) (gid : ℕ) (grp : GroupRec)
    (hx : x.quiz_group_id = some gid)
    (hf : fetch gid = some grp)
    (hmem : ∃ y ∈ wire, y.quiz_group_id = some gid)
    (hids : ((wire ++ [x]).map WireQuestion.id).Nodup) :
    (pass1 fetch (wire ++ [x])).groups = (pass1 fetch wire).groups
    ∧ (shiftPass (pass1 fetch (wire ++ [x])).groups (pass1 fetch (wire ++ [x])).questions).filter
        (fun q => q.quiz_group_id.isNone)
      = (shiftPass (pass1 fetch wire).groups (pass1 fetch wire).questions).filter
        (fun q => q.quiz_group_id.isNone)
    ∧ (reconcile fetch wire).1
      = ((pass1 fetch wire).questions.map (fun q =>
          if q.quiz_group_id = none
          then { q with position := shiftFold ((pass1 fetch wire).groups.map Prod.snd) q.position }
          else q)).mergeSort posLe := by
  have h1 : (wire.map WireQuestion.id).Nodup ∧ x.id ∉ wire.map WireQuestion.id := by
    rw [List.map_append, List.nodup_append] at hids
    refine ⟨hids.1, fun hmem' => ?_⟩
    exact hids.2.2 hmem' (by simp)
  have hcache := pass1_cache_of_member fetch wire gid grp h1.1 hf hmem
  have hfresh : ∀ r ∈ (pass1 fetch wire).questions, r.id ≠ x.id := by
    intro r hr he
    have hmm : r.id ∈ (pass1 fetch wire).questions.map AnnQuestion.id :=
      List.mem_map_of_mem _ hr
    rw [(pass1_inv fetch wire h1.1).2] at hmm
    exact h1.2 (he ▸ hmm)
  have hstep : pass1 fetch (wire ++ [x]) =
      { pass1 fetch wire with questions :=
          (pass1 fetch wire).questions ++ [⟨x.id, some gid, grp.question_points, grp.position⟩] } := by
    rw [pass1_append]
    simp only [pass1Step, hx, hcache]
    rw [dictInsert_fresh _ _ hfresh]
  refine ⟨by rw [hstep], ?_, ?_⟩
  · rw [hstep]
    simp only
    rw [shiftPass_eq_map, shiftPass_eq_map, List.map_append, List.filter_append]
    have hdrop : List.filter (fun q => q.quiz_group_id.isNone)
        (List.map (fun q =>
          if q.quiz_group_id = none
          then { q with position := shiftFold ((pass1 fetch wire).groups.map Prod.snd) q.position }
          else q) [(⟨x.id, some gid, grp.question_points, grp.position⟩ : AnnQuestion)]) = [] := by
      simp
    rw [hdrop, List.append_nil]
  · simp only [reconcile]
    rw [shiftPass_eq_map]

/-! ### Concrete fixtures for witness and counterexample evaluations -/

/-- A concrete group accessor: group 5 exists at position 1 with 2
points per member; every other group id is absent. -/
def fetchEx : ℕ → Option GroupRec := fun g => if g = 5 then some ⟨1, 2, 1⟩ else none

/-- Two wire questions: one member of group 5, one ungrouped. -/
def wireEx : List WireQuestion := [⟨1, some 5, 0⟩, ⟨2, none, 0⟩]

/-- An extra member of group 5, with a fresh id. -/
def xEx : WireQuestion := ⟨3, some 5, 0⟩

/-- Witness for `c2_shift_once_per_distinct_group` at a concrete input. -/
theorem c2_shift_once_per_distinct_group_witness :
    xEx.quiz_group_id = some 5
    ∧ fetchEx 5 = some ⟨1, 2, 1⟩
    ∧ (∃ y ∈ wireEx, y.quiz_group_id = some 5)
    ∧ ((wireEx ++ [xEx]).map WireQuestion.id).Nodup
    ∧ ((pass1 fetchEx (wireEx ++ [xEx])).groups = (pass1 fetchEx wireEx).groups
      ∧ (shiftPass (pass1 fetchEx (wireEx ++ [xEx])).groups (pass1 fetchEx (wireEx ++ [xEx])).questions).filter
          (fun q => q.quiz_group_id.isNone)
        = (shiftPass (pass1 fetchEx wireEx).groups (pass1 fetchEx wireEx).questions).filter
          (fun q => q.quiz_group_id.isNone)
      ∧ (reconcile fetchEx wireEx).1
        = ((pass1 fetchEx wireEx).questions.map (fun q =>
            if q.quiz_group_id = none
            then { q with position := shiftFold ((pass1 fetchEx wireEx).groups.map Prod.snd) q.position }
            else q)).mergeSort posLe) :=
  ⟨rfl, rfl, ⟨⟨1, some 5, 0⟩, by simp [wireEx], rfl⟩, by decide,
    c2_shift_once_per_distinct_group fetchEx wireEx xEx 5 ⟨1, 2, 1⟩ rfl rfl
      ⟨⟨1, some 5, 0⟩, by simp [wireEx], rfl⟩ (by decide)⟩

/-! ### C8: questions whose group is absent/empty on the API -/

/-- Wire list with a question referencing the absent group 7, an
ungrouped question, and a member of the existing group 5. -/
def wireC8 : List WireQuestion := [⟨1, some 7, 0⟩, ⟨2, none, 0⟩, ⟨3, some 5, 0⟩]

/-- The same wire list with the absent group reference removed, i.e.
question 1 literally ungrouped — what "treated as ungrouped" would mean. -/
def wireC8unref : List WireQuestion := [⟨1, none, 0⟩, ⟨2, none, 0⟩, ⟨3, some 5, 0⟩]

/-- C8 counterexample: a question whose group id does not resolve is
*numbered* sequentially but is not shifted by pass 2 (its
`quiz_group_id` is not `None`), unlike an actually ungrouped question:
with group 5 inserted at position 1, question 1 keeps position 1 when it
references the absent group 7, but ends at position 2 when it is
genuinely ungrouped.  So it is not "treated as ungrouped". -/
theorem c8_counterexample :
    shiftPass (pass1 fetchEx wireC8).groups (pass1 fetchEx wireC8).questions
      = [⟨1, some 7, 0, 1⟩, ⟨2, none, 0, 3⟩, ⟨3, some 5, 2, 1⟩]
    ∧ shiftPass (pass1 fetchEx wireC8unref).groups (pass1 fetchEx wireC8unref).questions
      = [⟨1, none, 0, 2⟩, ⟨2, none, 0, 3⟩, ⟨3, some 5, 2, 1⟩] := by decide

/-- C8 (amended): a question whose owning-group id does not resolve on
the API does not raise: pass 1 numbers it with the same sequential
counter as the ungrouped questions (starting at 1, in wire order), but
pass 2 does not shift it — its reconciled record is exactly its pass-1
record. -/
theorem c8_absent_group_sequential
    (fetch : ℕ → Option GroupRec) (wire : List WireQuestion) (gid : ℕ)
    (hids : (wire.map WireQuestion.id).Nodup)
    (hnone : fetch gid = none) :
    (((pass1 fetch wire).questions.filter (seqAssigned fetch)).map AnnQuestion.position
      = List.range' 1 ((pass1 fetch wire).counter - 1))
    ∧ (∀ q ∈ (pass1 fetch wire).questions, q.quiz_group_id = some gid →
        seqAssigned fetch q = true)
    ∧ (∀ q ∈ (pass1 fetch wire).questions, q.quiz_group_id = some gid →
        q ∈ (reconcile fetch wire).1) := by
  obtain ⟨⟨_, _, _, hseq, _, _⟩, _⟩ := pass1_inv fetch wire hids
  refine ⟨hseq, ?_, ?_⟩
  · intro q _ hq
    simp [seqAssigned, hq, hnone]
  · intro q hq hgid
    simp only [reconcile, List.mem_mergeSort]
    rw [shiftPass_eq_map]
    have himg : (if q.quiz_group_id = none
        then { q with position := shiftFold ((pass1 fetch wire).groups.map Prod.snd) q.position }
        else q) = q := by
      rw [if_neg]
      rw [hgid]
      simp
    rw [← himg]
    exact List.mem_map_of_mem _ hq

/-- Witness for `c8_absent_group_sequential` at a concrete input. -/
theorem c8_absent_group_sequential_witness :
    ((wireC8.map WireQuestion.id).Nodup ∧ fetchEx 7 = none)
    ∧ ((((pass1 fetchEx wireC8).questions.filter (seqAssigned fetchEx)).map AnnQuestion.position
        = List.range' 1 ((pass1 fetchEx wireC8).counter - 1))
      ∧ (∀ q ∈ (pass1 fetchEx wireC8).questions, q.quiz_group_id = some 7 →
          seqAssigned fetchEx q = true)
      ∧ (∀ q ∈ (pass1 fetchEx wireC8).questions, q.quiz_group_id = some 7 →
          q ∈ (reconcile fetchEx wireC8).1)) :=
  ⟨⟨by decide, rfl⟩, c8_absent_group_sequential fetchEx wireC8 7 (by decide) rfl⟩

/-! ### C3: the pass-2 shift inserts each group position into 1..N -/

/-- The pass-2 shift acting on a multiset of ungrouped positions. -/
def shiftMulti (p : ℕ) (U : Multiset ℕ) : Multiset ℕ :=
  U.map (fun u => if p ≤ u then u + 1 else u)

/-- All pass-2 shifts in order. -/
def shiftAllMulti (ps : List ℕ) (U : Multiset ℕ) : Multiset ℕ :=
  ps.foldl (fun U p => shiftMulti p U) U

theorem count_shiftMulti (p b : ℕ) (U : Multiset ℕ) :
    Multiset.count b (shiftMulti p U) =
      if b < p then Multiset.count b U
      else if b = p then 0
      else Multiset.count (b - 1) U := by
  induction U using Multiset.induction_on with
  | empty => simp [shiftMulti]
  | cons a t ih =>
    unfold shiftMulti at ih ⊢
    rw [Multiset.map_cons, Multiset.count_cons, Multiset.count_cons, Multiset.count_cons, ih]
    by_cases h3 : p ≤ a
    · rw [if_pos h3]
      split_ifs <;> omega
    · rw [if_neg h3]
      split_ifs <;> omega

theorem count_Icc_nat (a b x : ℕ) :
    Multiset.count x (Multiset.Icc a b) = if a ≤ x ∧ x ≤ b then 1 else 0 := by
  by_cases h : a ≤ x ∧ x ≤ b
  · rw [if_pos h]
    refine Multiset.count_eq_one_of_mem (Finset.nodup _) ?_
    simp only [Multiset.Icc, Finset.mem_val] at *
    exact Finset.mem_Icc.mpr h
  · rw [if_neg h]
    refine Multiset.count_eq_zero_of_not_mem ?_
    intro hmem
    simp only [Multiset.Icc, Finset.mem_val] at hmem
    exact h (Finset.mem_Icc.mp hmem)

theorem shiftMulti_insert (U placed : Multiset ℕ) (M p : ℕ)
    (hU : U + placed = Multiset.Icc 1 M)
    (hplaced : ∀ x ∈ placed, x < p)
    (hp1 : 1 ≤ p) (hpM : p ≤ M + 1) :
    shiftMulti p U + (p ::ₘ placed) = Multiset.Icc 1 (M + 1) := by
  ext b
  rw [Multiset.count_add, Multiset.count_cons, count_shiftMulti, count_Icc_nat]
  have hcount : ∀ x, Multiset.count x U + Multiset.count x placed
      = if 1 ≤ x ∧ x ≤ M then 1 else 0 := by
    intro x
    rw [← Multiset.count_add, hU, count_Icc_nat]
  have hplaced_zero : ∀ x, p ≤ x → Multiset.count x placed = 0 := by
    intro x hx
    refine Multiset.count_eq_zero_of_not_mem ?_
    intro hmem
    exact absurd (hplaced x hmem) (by omega)
  by_cases h1 : b < p
  · rw [if_pos h1]
    have := hcount b
    have hb : (1 ≤ b ∧ b ≤ M) ↔ (1 ≤ b ∧ b ≤ M + 1) := by omega
    rw [if_neg (by omega : ¬ b = p)]
    by_cases hcase : 1 ≤ b ∧ b ≤ M
    · rw [if_pos (hb.mp hcase)]
      rw [if_pos hcase] at this
      omega
    · rw [if_neg (fun hc => hcase (by omega))]
      rw [if_neg hcase] at this
      omega
  · by_cases hbp : b = p
    · subst hbp
      rw [if_neg h1, if_pos rfl, if_pos rfl]
      rw [hplaced_zero b le_rfl]
      rw [if_pos (by omega)]
    · have hgt : p < b := by omega
      rw [if_neg h1, if_neg hbp, if_neg hbp]
      have := hcount (b - 1)
      rw [hplaced_zero (b - 1) (by omega), hplaced_zero b (by omega)] at *
      by_cases hcase : 1 ≤ b - 1 ∧ b - 1 ≤ M
      · rw [if_pos hcase] at this
        rw [if_pos (by omega : 1 ≤ b ∧ b ≤ M + 1)]
        omega
      · rw [if_neg hcase] at this
        rw [if_neg (by omega : ¬ (1 ≤ b ∧ b ≤ M + 1))]
        omega

theorem shiftAllMulti_insert :
    ∀ (ps : List ℕ) (U placed : Multiset ℕ) (M : ℕ),
    U + placed = Multiset.Icc 1 M →
    (∀ x ∈ placed, ∀ p ∈ ps, x < p) →
    List.Pairwise (· < ·) ps →
    (∀ p ∈ ps, 1 ≤ p) →
    (∀ i (hi : i < ps.length), ps.get ⟨i, hi⟩ ≤ M + i + 1) →
    shiftAllMulti ps U + (placed + (↑ps : Multiset ℕ)) = Multiset.Icc 1 (M + ps.length) := by
  intro ps
  induction ps with
  | nil =>
    intro U placed M hU _ _ _ _
    simpa [shiftAllMulti] using hU
  | cons p ps ih =>
    intro U placed M hU hplaced hpair hpos hbound
    have hstep : shiftMulti p U + (p ::ₘ placed) = Multiset.Icc 1 (M + 1) :=
      shiftMulti_insert U placed M p hU
        (fun x hx => hplaced x hx p (List.mem_cons_self p ps))
        (hpos p (List.mem_cons_self p ps))
        (by have := hbound 0 (by simp); simpa using this)
    have hplaced' : ∀ x ∈ (p ::ₘ placed), ∀ r ∈ ps, x < r := by
      intro x hx r hr
      rcases Multiset.mem_cons.mp hx with hx | hx
      · subst hx
        exact (List.pairwise_cons.mp hpair).1 r hr
      · exact hplaced x hx r (List.mem_cons_of_mem p hr)
    have hbound' : ∀ i (hi : i < ps.length), ps.get ⟨i, hi⟩ ≤ (M + 1) + i + 1 := by
      intro i hi
      have := hbound (i + 1) (by simpa using Nat.succ_lt_succ hi)
      simp only [List.get_cons_succ] at this
      omega
    have := ih (shiftMulti p U) (p ::ₘ placed) (M + 1) hstep hplaced'
      (List.pairwise_cons.mp hpair).2
      (fun r hr => hpos r (List.mem_cons_of_mem p hr)) hbound'
    have hsh : shiftAllMulti (p :: ps) U = shiftAllMulti ps (shiftMulti p U) := by
      simp [shiftAllMulti]
    rw [hsh]
    have hmass : (p ::ₘ placed) + (↑ps : Multiset ℕ) = placed + (↑(p :: ps) : Multiset ℕ) := by
      rw [← Multiset.cons_coe, Multiset.cons_add, Multiset.add_cons]
    rw [hmass] at this
    rw [this]
    congr 1
    simp only [List.length_cons]
    omega

/-- `shiftFold` over a multiset of positions is `shiftAllMulti`. -/
theorem map_shiftFold_eq_shiftAllMulti :
    ∀ (gs : List GroupRec) (U : Multiset ℕ),
    U.map (shiftFold gs) = shiftAllMulti (gs.map GroupRec.position) U := by
  intro gs
  induction gs with
  | nil =>
    intro U
    simp [shiftFold, shiftAllMulti]
  | cons g gs ih =>
    intro U
    have h1 : U.map (shiftFold (g :: gs))
        = (U.map (fun u => if g.position ≤ u then u + 1 else u)).map (shiftFold gs) := by
      rw [Multiset.map_map]
      rfl
    rw [h1, ih]
    simp [shiftAllMulti, shiftMulti]

/-- C3 (amended): for wire inputs with distinct question ids, every
referenced group resolvable, and resolved groups (in first-encounter
order) at strictly increasing positions each within the growing 1..N
range, the reconciled positions of ungrouped questions together with the
groups form exactly the interval 1..N (a permutation, no duplicates),
every grouped question carries its group's own position and points, and
both returned mappings are sorted ascending by position. -/
theorem c3_position_invariant
    (fetch : ℕ → Option GroupRec) (wire : List WireQuestion)
    (hids : (wire.map WireQuestion.id).Nodup)
    (hres : ∀ q ∈ (pass1 fetch wire).questions, ∀ gid, q.quiz_group_id = some gid →
        (fetch gid).isSome)
    (hmono : List.Pairwise (· < ·) ((pass1 fetch wire).groups.map (fun p => p.2.position)))
    (hlow : ∀ p ∈ (pass1 fetch wire).groups, 1 ≤ p.2.position)
    (hbound : ∀ i (hi : i < (pass1 fetch wire).groups.length),
        ((pass1 fetch wire).groups.get ⟨i, hi⟩).2.position
          ≤ ((pass1 fetch wire).counter - 1) + i + 1) :
    ((((reconcile fetch wire).1.filter (fun q => q.quiz_group_id.isNone)).map
        AnnQuestion.position : List ℕ) : Multiset ℕ)
      + (((reconcile fetch wire).2.map (fun p => p.2.position) : List ℕ) : Multiset ℕ)
      = Multiset.Icc 1 (((pass1 fetch wire).counter - 1) + (pass1 fetch wire).groups.length)
    ∧ (∀ q ∈ (reconcile fetch wire).1, ∀ gid, q.quiz_group_id = some gid →
        ∃ grp, (gid, grp) ∈ (reconcile fetch wire).2 ∧ q.position = grp.position
          ∧ q.points_possible = grp.question_points)
    ∧ List.Pairwise (fun a b => a.position ≤ b.position) (reconcile fetch wire).1
    ∧ List.Pairwise (fun a b => a.2.position ≤ b.2.position) (reconcile fetch wire).2 := by
  obtain ⟨⟨hsound, hnodupg, hc1, hseq, hgpos, hcached⟩, hidsq⟩ := pass1_inv fetch wire hids
  have hrec1 : (reconcile fetch wire).1
      = (shiftPass (pass1 fetch wire).groups (pass1 fetch wire).questions).mergeSort posLe := rfl
  have hrec2 : (reconcile fetch wire).2
      = (pass1 fetch wire).groups.mergeSort gposLe := rfl
  have hF := shiftPass_eq_map (pass1 fetch wire).groups (pass1 fetch wire).questions
  -- the function pass 2 applies pointwise
  set F : AnnQuestion → AnnQuestion := fun q =>
    if q.quiz_group_id = none
    then { q with position := shiftFold ((pass1 fetch wire).groups.map Prod.snd) q.position }
    else q with hFdef
  have hFgid : ∀ q, (F q).quiz_group_id = q.quiz_group_id := by
    intro q
    rw [hFdef]
    by_cases hq : q.quiz_group_id = none
    · simp only [if_pos hq]
    · simp only [if_neg hq]
  refine ⟨?_, ?_, ?_, ?_⟩
  · -- (a) the positions form the interval 1..N
    have hperm1 : List.Perm
        (((reconcile fetch wire).1.filter (fun q => q.quiz_group_id.isNone)).map
          AnnQuestion.position)
        (((shiftPass (pass1 fetch wire).groups (pass1 fetch wire).questions).filter
            (fun q => q.quiz_group_id.isNone)).map AnnQuestion.position) := by
      rw [hrec1]
      exact ((List.mergeSort_perm _ _).filter _).map _
    have hperm2 : List.Perm
        ((reconcile fetch wire).2.map (fun p => p.2.position))
        ((pass1 fetch wire).groups.map (fun p => p.2.position)) := by
      rw [hrec2]
      exact (List.mergeSort_perm _ _).map _
    rw [Multiset.coe_eq_coe.mpr hperm1, Multiset.coe_eq_coe.mpr hperm2]
    -- rewrite the shifted, filtered positions
    have hchain : ((shiftPass (pass1 fetch wire).groups (pass1 fetch wire).questions).filter
          (fun q => q.quiz_group_id.isNone)).map AnnQuestion.position
        = (((pass1 fetch wire).questions.filter (fun q => q.quiz_group_id.isNone)).map
            AnnQuestion.position).map
            (shiftFold ((pass1 fetch wire).groups.map Prod.snd)) := by
      rw [hF]
      rw [List.filter_map]
      have hpF : List.filter ((fun q => q.quiz_group_id.isNone) ∘ F)
            (pass1 fetch wire).questions
          = List.filter (fun q => q.quiz_group_id.isNone) (pass1 fetch wire).questions := by
        refine List.filter_congr ?_
        intro q _
        simp [Function.comp, hFgid q]
      rw [hpF, List.map_map, List.map_map]
      refine List.map_congr_left ?_
      intro q hq
      have hqnone : q.quiz_group_id = none := by
        have := (List.mem_filter.mp hq).2
        simpa [Option.isNone_iff_eq_none] using this
      simp only [Function.comp, hFdef, if_pos hqnone]
    rw [hchain]
    -- sequential positions are 1..m
    have hfeq : List.filter (fun q => q.quiz_group_id.isNone) (pass1 fetch wire).questions
        = List.filter (seqAssigned fetch) (pass1 fetch wire).questions := by
      refine List.filter_congr ?_
      intro q hq
      cases hgid : q.quiz_group_id with
      | none => simp [seqAssigned, hgid]
      | some gid =>
        have hfs := hres q hq gid hgid
        cases hf : fetch gid with
        | none =>
          rw [hf] at hfs
          simp at hfs
        | some g => simp [seqAssigned, hgid, hf]
    rw [hfeq, hseq]
    -- move to multisets and apply the insertion lemma
    have hcoe : ((List.range' 1 ((pass1 fetch wire).counter - 1)).map
          (shiftFold ((pass1 fetch wire).groups.map Prod.snd)) : Multiset ℕ)
        = shiftAllMulti ((pass1 fetch wire).groups.map (fun p => p.2.position))
            (Multiset.Icc 1 ((pass1 fetch wire).counter - 1)) := by
      have h1 : ((List.range' 1 ((pass1 fetch wire).counter - 1)).map
            (shiftFold ((pass1 fetch wire).groups.map Prod.snd)) : Multiset ℕ)
          = Multiset.map (shiftFold ((pass1 fetch wire).groups.map Prod.snd))
              (↑(List.range' 1 ((pass1 fetch wire).counter - 1))) := by
        simp
      rw [h1, map_shiftFold_eq_shiftAllMulti]
      have h2 : ((pass1 fetch wire).groups.map Prod.snd).map GroupRec.position
          = (pass1 fetch wire).groups.map (fun p => p.2.position) := by
        rw [List.map_map]
        rfl
      rw [h2]
      have h3 : (↑(List.range' 1 ((pass1 fetch wire).counter - 1)) : Multiset ℕ)
          = Multiset.Icc 1 ((pass1 fetch wire).counter - 1) := by
        show _ = (Finset.Icc 1 ((pass1 fetch wire).counter - 1)).val
        rw [Nat.Icc_eq_range']
        rfl
      rw [h3]
    rw [hcoe]
    have hinsert := shiftAllMulti_insert
      ((pass1 fetch wire).groups.map (fun p => p.2.position))
      (Multiset.Icc 1 ((pass1 fetch wire).counter - 1)) 0
      ((pass1 fetch wire).counter - 1)
      (by rw [add_zero])
      (by intro x hx; simp at hx)
      hmono
      (by
        intro p hp
        obtain ⟨g, hg, hge⟩ := List.mem_map.mp hp
        rw [← hge]
        exact hlow g hg)
      (by
        intro i hi
        have hlen : i < (pass1 fetch wire).groups.length := by
          simpa using hi
        rw [List.get_map]
        exact hbound i hlen)
    rw [zero_add] at hinsert
    rw [hinsert]
    congr 1
    simp
  · -- (b) grouped questions carry the group's own position and points
    intro q hq gid hgid
    rw [hrec1] at hq
    rw [List.mem_mergeSort] at hq
    rw [hF] at hq
    obtain ⟨q0, hq0, hq0e⟩ := List.mem_map.mp hq
    have hq0gid : q0.quiz_group_id = some gid := by
      rw [← hFgid q0, hq0e, hgid]
    have hqq0 : q = q0 := by
      rw [← hq0e]
      simp only [hFdef]
      rw [if_neg (show ¬ q0.quiz_group_id = none by simp [hq0gid])]
    subst hqq0
    have hfs : (fetch gid).isSome := hres q hq0 gid hq0gid
    rcases hcached q hq0 gid hq0gid with hlk | hno
    · obtain ⟨grp, hgrp⟩ := Option.isSome_iff_exists.mp hlk
      obtain ⟨hpos, hpts⟩ := hgpos q hq0 gid hq0gid grp hgrp
      refine ⟨grp, ?_, hpos, hpts⟩
      rw [hrec2, List.mem_mergeSort]
      exact lookupGroup_mem _ _ _ hgrp
    · rw [hno] at hfs
      simp at hfs
  · rw [hrec1]
    have hs : ((shiftPass (pass1 fetch wire).groups
          (pass1 fetch wire).questions).mergeSort posLe).Pairwise
        (fun a b => posLe a b = true) := by
      refine List.sorted_mergeSort ?_ ?_ _
      · intro a b c hab hbc
        simp only [posLe, decide_eq_true_eq] at *
        omega
      · intro a b
        simp only [posLe, Bool.or_eq_true, decide_eq_true_eq]
        omega
    refine hs.imp ?_
    intro a b hab
    simpa [posLe] using hab
  · rw [hrec2]
    have hs : (((pass1 fetch wire).groups).mergeSort gposLe).Pairwise
        (fun a b => gposLe a b = true) := by
      refine List.sorted_mergeSort ?_ ?_ _
      · intro a b c hab hbc
        simp only [gposLe, decide_eq_true_eq] at *
        omega
      · intro a b
        simp only [gposLe, Bool.or_eq_true, decide_eq_true_eq]
        omega
    refine hs.imp ?_
    intro a b hab
    simpa [gposLe] using hab

/-- A group accessor whose only group sits at position 100 — a position
the API could hand back but which does not fit the quiz's 1..N range. -/
def fetchC3 : ℕ → Option GroupRec := fun g => if g = 9 then some ⟨100, 2, 1⟩ else none

/-- One ungrouped question and one member of the far-away group. -/
def wireC3 : List WireQuestion := [⟨1, none, 0⟩, ⟨2, some 9, 0⟩]

/-- C3 counterexample: "for every reconciled output" is too strong — the
reconciler copies group positions verbatim from the API, so a group
reported at position 100 in a two-slot quiz yields positions {1, 100},
not a permutation of 1..2. -/
theorem c3_counterexample :
    ((((reconcile fetchC3 wireC3).1.filter (fun q => q.quiz_group_id.isNone)).map
        AnnQuestion.position : List ℕ) : Multiset ℕ)
      + (((reconcile fetchC3 wireC3).2.map (fun p => p.2.position) : List ℕ) : Multiset ℕ)
      ≠ Multiset.Icc 1 (((pass1 fetchC3 wireC3).counter - 1)
          + (pass1 fetchC3 wireC3).groups.length) := by
  have hq : shiftPass (pass1 fetchC3 wireC3).groups (pass1 fetchC3 wireC3).questions
      = [⟨1, none, 0, 1⟩, ⟨2, some 9, 2, 100⟩] := by decide
  have h1 : (reconcile fetchC3 wireC3).1 = [⟨1, none, 0, 1⟩, ⟨2, some 9, 2, 100⟩] := by
    show (shiftPass (pass1 fetchC3 wireC3).groups
        (pass1 fetchC3 wireC3).questions).mergeSort posLe = _
    rw [hq]
    exact List.mergeSort_of_sorted (by decide)
  have h2 : (reconcile fetchC3 wireC3).2 = [(9, ⟨100, 2, 1⟩)] := by
    show ((pass1 fetchC3 wireC3).groups).mergeSort gposLe = _
    have hg : (pass1 fetchC3 wireC3).groups = [(9, ⟨100, 2, 1⟩)] := by decide
    rw [hg, List.mergeSort_singleton]
  rw [h1, h2]
  have h3 : (([(⟨1, none, 0, 1⟩ : AnnQuestion), ⟨2, some 9, 2, 100⟩].filter
      (fun q => q.quiz_group_id.isNone)).map AnnQuestion.position) = [1] := by decide
  have h4 : ([((9 : ℕ), (⟨100, 2, 1⟩ : GroupRec))].map (fun p => p.2.position)) = [100] := by
    decide
  rw [h3, h4]
  have h5 : ((pass1 fetchC3 wireC3).counter - 1) + (pass1 fetchC3 wireC3).groups.length
      = 2 := by decide
  rw [h5]
  intro h
  rw [Multiset.coe_add] at h
  have h6 : Multiset.Icc 1 2 = (([1, 2] : List ℕ) : Multiset ℕ) := by
    show (Finset.Icc 1 2).val = _
    rw [Nat.Icc_eq_range']
    rfl
  rw [h6, Multiset.coe_eq_coe] at h
  exact absurd h (by decide)

/-- Witness for `c3_position_invariant` at a concrete input. -/
theorem c3_position_invariant_witness :
    ((wireEx.map WireQuestion.id).Nodup
      ∧ (∀ q ∈ (pass1 fetchEx wireEx).questions, ∀ gid, q.quiz_group_id = some gid →
          (fetchEx gid).isSome)
      ∧ List.Pairwise (· < ·) ((pass1 fetchEx wireEx).groups.map (fun p => p.2.position))
      ∧ (∀ p ∈ (pass1 fetchEx wireEx).groups, 1 ≤ p.2.position)
      ∧ (∀ i (hi : i < (pass1 fetchEx wireEx).groups.length),
          ((pass1 fetchEx wireEx).groups.get ⟨i, hi⟩).2.position
            ≤ ((pass1 fetchEx wireEx).counter - 1) + i + 1))
    ∧ (((((reconcile fetchEx wireEx).1.filter (fun q => q.quiz_group_id.isNone)).map
          AnnQuestion.position : List ℕ) : Multiset ℕ)
        + (((reconcile fetchEx wireEx).2.map (fun p => p.2.position) : List ℕ) : Multiset ℕ)
        = Multiset.Icc 1 (((pass1 fetchEx wireEx).counter - 1)
            + (pass1 fetchEx wireEx).groups.length)
      ∧ (∀ q ∈ (reconcile fetchEx wireEx).1, ∀ gid, q.quiz_group_id = some gid →
          ∃ grp, (gid, grp) ∈ (reconcile fetchEx wireEx).2 ∧ q.position = grp.position
            ∧ q.points_possible = grp.question_points)
      ∧ List.Pairwise (fun a b => a.position ≤ b.position) (reconcile fetchEx wireEx).1
      ∧ List.Pairwise (fun a b => a.2.position ≤ b.2.position) (reconcile fetchEx wireEx).2) :=
  ⟨⟨by decide, by decide, by decide, by decide, by decide⟩,
    c3_position_invariant fetchEx wireEx (by decide) (by decide) (by decide) (by decide)
      (by decide)⟩

/-! ### C1, C4, C10: renderer theorems -/

/-- C1 (code bug): for a `fill_in_multiple_blanks` question the written
markup is the body *unchanged* — the `[color]` placeholder survives into
the output even though the blank has an answer, because line 489 never
reassigns the result of `question_text.replace`; the intended rendering
(what the spec's table describes, and what the parallel
`multiple_dropdowns` branch actually does) differs. -/
theorem c1_blank_placeholder_survives :
    renderFillInMultipleBlanks "The [color] fox".data [⟨"color".data, "red".data⟩]
      = "The [color] fox\n".data
    ∧ "[color]".data <:+: renderFillInMultipleBlanks "The [color] fox".data
        [⟨"color".data, "red".data⟩]
    ∧ renderFillInMultipleBlanksIntended "The [color] fox".data [⟨"color".data, "red".data⟩]
      ≠ renderFillInMultipleBlanks "The [color] fox".data [⟨"color".data, "red".data⟩] := by
  refine ⟨rfl, ⟨"The ".data, " fox\n".data, by decide⟩, ?_⟩
  intro h
  rw [show renderFillInMultipleBlanks "The [color] fox".data [⟨"color".data, "red".data⟩]
      = "The [color] fox\n".data from rfl] at h
  rw [renderFillInMultipleBlanksIntended] at h
  simp [fibOptions, fibInputFor, pyReplaceAll, dropPrefixCh] at h

/-- C4 counterexample: the exact answer 6.9995 (margin 0) is within
0.001 of the integer 7, yet the code renders a `pl-number-input`, not an
integer input — `int()` truncates toward zero, so the near-integer test
`abs(exact - int(exact)) < 0.001` fails for values just below an
integer. -/
theorem c4_counterexample :
    |(13999/2000 : ℚ) - ((7 : ℤ) : ℚ)| < 1/1000
    ∧ renderNumerical { numerical_answer_type := "exact_answer", exact := 13999/2000, margin := 0 }
      = .numberInput (13999/2000) 0 := by
  constructor
  · rw [abs_of_nonpos (by norm_num)]
    norm_num
  · have h6 : pyInt (13999/2000 : ℚ) = 6 := by norm_num [pyInt]
    have habs : |(13999/2000 : ℚ) - ((pyInt (13999/2000 : ℚ) : ℤ) : ℚ)| = 1999/2000 := by
      rw [h6, abs_of_nonneg] <;> norm_num
    simp only [renderNumerical, habs]
    norm_num

/-- C4 (amended): numerical rendering follows the sub-variant table with
the near-integer test read as the code computes it — the exact value
differs from its truncation toward zero (`int()`) by less than 0.001:
such an exact answer with margin 0 gives an integer input with the
truncated value; any other exact answer gives a number input with
`atol = margin`; a range answer gives a number input at the midpoint
with tolerance half the width; a precision answer gives a
significant-figures comparison with the declared digits; anything else
falls back to a bare numeric input. -/
theorem c4_numerical_rendering (a : NumAnswer) :
    (a.numerical_answer_type = "exact_answer" →
      |a.exact - (pyInt a.exact : ℚ)| < 1/1000 → a.margin = 0 →
      renderNumerical a = .integerInput (pyInt a.exact))
    ∧ (a.numerical_answer_type = "exact_answer" →
      ¬ (|a.exact - (pyInt a.exact : ℚ)| < 1/1000 ∧ a.margin = 0) →
      renderNumerical a = .numberInput a.exact a.margin)
    ∧ (a.numerical_answer_type = "range_answer" →
      renderNumerical a = .numberInput ((a.«end» + a.start) / 2) (|a.«end» - a.start| / 2))
    ∧ (a.numerical_answer_type = "precision_answer" →
      renderNumerical a = .sigfigInput a.approximate a.precision)
    ∧ (a.numerical_answer_type ≠ "exact_answer" →
      a.numerical_answer_type ≠ "range_answer" →
      a.numerical_answer_type ≠ "precision_answer" →
      renderNumerical a = .bareInput) := by
  refine ⟨?_, ?_, ?_, ?_, ?_⟩
  · intro h1 h2 h3
    unfold renderNumerical
    rw [if_pos ⟨h1, h2, h3⟩]
  · intro h1 hn
    unfold renderNumerical
    rw [if_neg (fun hc => hn ⟨hc.2.1, hc.2.2⟩), if_pos h1]
  · intro h
    have hstep : renderNumerical a
        = .numberInput ((a.«end» + a.start) / 2) |a.«end» - (a.«end» + a.start) / 2| := by
      simp only [renderNumerical, h]
      rfl
    rw [hstep]
    have harg : a.«end» - (a.«end» + a.start) / 2 = (a.«end» - a.start) / 2 := by ring
    rw [harg, abs_div]
    norm_num
  · intro h
    simp only [renderNumerical, h]
    rfl
  · intro h1 h2 h3
    unfold renderNumerical
    rw [if_neg (fun hc => h1 hc.1), if_neg h1, if_neg h2, if_neg h3]

/-- Witness for `c4_numerical_rendering`: the range answer `[2, 4]`
renders as a number input at midpoint 3 with tolerance 1. -/
theorem c4_numerical_rendering_witness :
    ({ numerical_answer_type := "range_answer", start := 2, «end» := 4 }
        : NumAnswer).numerical_answer_type = "range_answer"
    ∧ renderNumerical { numerical_answer_type := "range_answer", start := 2, «end» := 4 }
      = .numberInput (((4 : ℚ) + 2) / 2) (|(4 : ℚ) - 2| / 2) :=
  ⟨rfl, (c4_numerical_rendering
      { numerical_answer_type := "range_answer", start := 2, «end» := 4 }).2.2.1 rfl⟩

/-- C10: the emitted descriptor carries `gradingMethod = "Manual"` if
and only if the question's type is `text_only_question` or
`essay_question`. -/
theorem c10_manual_grading_iff (question_type title topic : String) :
    (infoJsonFor question_type title topic).gradingMethod = some "Manual"
      ↔ (question_type = "text_only_question" ∨ question_type = "essay_question") := by
  unfold infoJsonFor
  by_cases h : question_type = "text_only_question" ∨ question_type = "essay_question"
  · simp only [if_pos h]
    simp [h]
  · simp only [if_neg h]
    simp [h]

/-! ## Assessment assembly (the conversion loop, canvas.py lines 333-395)

The interactive prompt, the renderer and the image downloads are the
spec's external collaborators: they enter as function arguments
(`title`, `render`, `script`, `images`), exactly as §9 of the spec
models them. -/

/-- A confirmed question as the conversion loop reads it. -/
structure ConvQuestion where
  id : ℕ
  question_type : String
  quiz_group_id : Option ℕ
  points_possible : ℚ
deriving Repr, DecidableEq

/-- The `question_alt` dict of canvas.py lines 360-363. -/
structure QuestionAlt where
  id : String
  points : ℚ
deriving Repr, DecidableEq

/-- One entry of the assessment's question list: either a standalone
alternative or a group wrapper (`_pl_alt`, canvas.py lines 367-372). -/
inductive ZoneEntry where
  | single (alt : QuestionAlt)
  | groupWrapper (gid : ℕ) (numberChoose : ℕ) (points : ℚ) (alternatives : List QuestionAlt)
deriving Repr, DecidableEq

/-- Does this entry wrap the given group? -/
def ZoneEntry.wrapsGid (gid : ℕ) : ZoneEntry → Bool
  | .groupWrapper g _ _ _ => g = gid
  | _ => false

/-- Appending an alternative to the wrapper of `gid` (the mutation
`group["_pl_alt"]["alternatives"].append(...)` of canvas.py line 374,
seen through the entry list that shares the dict). -/
def ZoneEntry.addAlt (gid : ℕ) (alt : QuestionAlt) : ZoneEntry → ZoneEntry
  | .groupWrapper g n p alts =>
    if g = gid then .groupWrapper g n p (alts ++ [alt]) else .groupWrapper g n p alts
  | e => e

/-- `file_name_only` (canvas.py lines 183-184): strip every character
that is not alphanumeric (Python `[\W_]+` also strips underscores). -/
def fileNameOnly (s : String) : String := ⟨s.data.filter Char.isAlphanum⟩

/-- The suffix-probing loop of canvas.py lines 353-356, searching from
suffix 1 upward.  `fuel` bounds the search; callers pass more candidates
than taken names, so the base case is unreachable. -/
def firstFree (taken : List String) (base : String) : ℕ → ℕ → String
  | 0, n => base ++ "_" ++ toString n
  | fuel + 1, n =>
    let cand := base ++ "_" ++ toString n
    if taken.contains cand then firstFree taken base fuel (n + 1) else cand

/-- The filesystem-unique question slug (canvas.py lines 352-356): the
sanitized title itself if free, else the first free numeric suffix. -/
def dedupName (taken : List String) (base : String) : String :=
  if taken.contains base then firstFree taken base (taken.length + 1) 1 else base

/-- A file created for one question. -/
inductive OutFile where
  | infoJson (path : String) (content : InfoJson)
  | questionHtml (path : String) (content : String)
  | clientFile (path : String)
  | serverPy (path : String) (content : String)
deriving Repr, DecidableEq

/-- The artifacts written for one surviving question, in write order:
`info.json` (lines 378-388), the image files extracted by
`handle_images` (line 391, contents external), `question.html`
(lines 393-538), and `server.py` for calculated questions only
(lines 540-558). -/
def questionFiles (topic : String) (render : ConvQuestion → String)
    (script : ConvQuestion → String) (images : ConvQuestion → List String)
    (dir : String) (title : String) (q : ConvQuestion) : List OutFile :=
  [.infoJson (dir ++ "/info.json") (infoJsonFor q.question_type title topic)]
  ++ (images q).map (fun n => .clientFile (dir ++ "/clientFilesQuestion/" ++ n))
  ++ [.questionHtml (dir ++ "/question.html") (render q)]
  ++ (if q.question_type = "calculated_question"
      then [.serverPy (dir ++ "/server.py") (script q)] else [])

/-- The loop state: directory names taken under the quiz's questions
directory, files written so far, and the assessment's question list
`pl_quiz_questions`. -/
structure ConvState where
  existingDirs : List String
  files : List OutFile
  entries : List ZoneEntry
deriving Repr, DecidableEq

/-- One iteration of the conversion loop (canvas.py lines 335-395) for
question `q`.  A blank operator title skips the question entirely
(lines 349-351).  A group id that is not in the reconciled `groups`
mapping raises `KeyError` in Python (line 366), modelled as `none`. -/
def convStep (groups : List (ℕ × GroupRec)) (title : ConvQuestion → String)
    (render : ConvQuestion → String) (script : ConvQuestion → String)
    (images : ConvQuestion → List String) (quizSlug topic : String)
    (st : ConvState) (q : ConvQuestion) : Option ConvState :=
  let t := title q
  if t = "" then some st
  else
    let name := dedupName st.existingDirs (fileNameOnly t)
    let alt : QuestionAlt := ⟨quizSlug ++ "/" ++ name, q.points_possible⟩
    let files' := st.files ++ questionFiles topic render script images name t q
    match q.quiz_group_id with
    | some gid =>
      match lookupGroup groups gid with
      | none => none
      | some grp =>
        let entries' :=
          if st.entries.any (ZoneEntry.wrapsGid gid) then
            st.entries.map (ZoneEntry.addAlt gid alt)
          else
            st.entries ++ [.groupWrapper gid grp.pick_count grp.question_points [alt]]
        some ⟨st.existingDirs ++ [name], files', entries'⟩
    | none =>
      some ⟨st.existingDirs ++ [name], files', st.entries ++ [.single alt]⟩

/-- The whole conversion loop over the reconciled questions, starting
from the directories already on disk. -/
def assemble (groups : List (ℕ × GroupRec)) (title : ConvQuestion → String)
    (render : ConvQuestion → String) (script : ConvQuestion → String)
    (images : ConvQuestion → List String) (quizSlug topic : String)
    (initDirs : List String) (qs : List ConvQuestion) : Option ConvState :=
  qs.foldl
    (fun ost q => ost.bind (fun st => convStep groups title render script images quizSlug topic st q))
    (some ⟨initDirs, [], []⟩)

/-- C7: a question whose operator-confirmed title is blank contributes
nothing at all — no directory, no files, no assessment entry — and every
other question is processed exactly as if the skipped question were not
in the list: the whole conversion is equal on both inputs. -/
theorem c7_blank_title_skips
    (groups : List (ℕ × GroupRec)) (title : ConvQuestion → String)
    (render script : ConvQuestion → String) (images : ConvQuestion → List String)
    (quizSlug topic : String) (initDirs : List String)
    (qs1 qs2 : List ConvQuestion) (q : ConvQuestion)
    (hblank : title q = "") :
    assemble groups title render script images quizSlug topic initDirs (qs1 ++ q :: qs2)
      = assemble groups title render script images quizSlug topic initDirs (qs1 ++ qs2) := by
  unfold assemble
  rw [List.foldl_append, List.foldl_append, List.foldl_cons]
  congr 1
  cases hacc : List.foldl (fun ost q => ost.bind
      (fun st => convStep groups title render script images quizSlug topic st q))
      (some (⟨initDirs, [], []⟩ : ConvState)) qs1 with
  | none => rfl
  | some st =>
    show convStep groups title render script images quizSlug topic st q = some st
    simp [convStep, hblank]

/-- The operator of the witness runs: question 2 is skipped with a blank
title, every other question is titled from its id. -/
def titleEx : ConvQuestion → String := fun q => if q.id = 2 then "" else "Q" ++ toString q.id

/-- A constant renderer standing in for the per-type markup writer. -/
def renderEx : ConvQuestion → String := fun _ => "<pl-question-panel></pl-question-panel>"

/-- A constant generator-script writer. -/
def scriptEx : ConvQuestion → String := fun _ => ""

/-- No embedded images in the witness runs. -/
def imagesEx : ConvQuestion → List String := fun _ => []

/-- The reconciled group mapping of the witness runs: one group. -/
def groupsEx : List (ℕ × GroupRec) := [(5, ⟨1, 2, 1⟩)]

/-- Witness for `c7_blank_title_skips` at a concrete input. -/
theorem c7_blank_title_skips_witness :
    titleEx ⟨2, "essay_question", none, 1⟩ = ""
    ∧ assemble groupsEx titleEx renderEx scriptEx imagesEx "quiz" "None" []
        ([⟨1, "essay_question", none, 1⟩]
          ++ ⟨2, "essay_question", none, 1⟩ :: [⟨3, "essay_question", some 5, 2⟩])
      = assemble groupsEx titleEx renderEx scriptEx imagesEx "quiz" "None" []
        ([⟨1, "essay_question", none, 1⟩] ++ [⟨3, "essay_question", some 5, 2⟩]) :=
  ⟨rfl, c7_blank_title_skips groupsEx titleEx renderEx scriptEx imagesEx "quiz" "None" []
    [⟨1, "essay_question", none, 1⟩] [⟨3, "essay_question", some 5, 2⟩]
    ⟨2, "essay_question", none, 1⟩ rfl⟩

/-! ### C6: the spec-side description of the assessment entry list -/

/-- The group ids referenced by a contribution list. -/
def gidsOf (cs : List (Option ℕ × QuestionAlt)) : List ℕ := cs.filterMap Prod.fst

/-- The alternatives contributed to one group, in order. -/
def gidAlts (gid : ℕ) (cs : List (Option ℕ × QuestionAlt)) : List QuestionAlt :=
  (cs.filter (fun c => c.1 = some gid)).map Prod.snd

/-- The claim's description of the assessment question list, stated as
its own definition to compare with the loop's output: walking the
surviving contributions in order, an ungrouped one appends a standalone
entry; the first member of each group appends one wrapper carrying the
group's pick-count and per-member points and listing every member of
that group (in order) as alternatives; later members of an
already-seen group add no top-level entry. -/
def specEntries (groups : List (ℕ × GroupRec)) :
    List (Option ℕ × QuestionAlt) → List ZoneEntry
  | [] => []
  | (none, alt) :: rest => .single alt :: specEntries groups rest
  | (some gid, alt) :: rest =>
    .groupWrapper gid ((lookupGroup groups gid).getD ⟨0, 0, 1⟩).pick_count
        ((lookupGroup groups gid).getD ⟨0, 0, 1⟩).question_points
        (alt :: gidAlts gid rest)
      :: specEntries groups (rest.filter (fun c => ¬ c.1 = some gid))
termination_by cs => cs.length
decreasing_by
  · simp
  · calc (rest.filter (fun c => ¬ c.1 = some gid)).length
        ≤ rest.length := List.length_filter_le _ _
      _ < rest.length + 1 := by omega

/-- The per-question contribution (group id and alternative descriptor)
of the conversion loop, tracking the same directory-name state. -/
def contribStep (title : ConvQuestion → String) (slug : String)
    (st : List String × List (Option ℕ × QuestionAlt)) (q : ConvQuestion) :
    List String × List (Option ℕ × QuestionAlt) :=
  let t := title q
  if t = "" then st
  else
    let name := dedupName st.1 (fileNameOnly t)
    (st.1 ++ [name], st.2 ++ [(q.quiz_group_id, ⟨slug ++ "/" ++ name, q.points_possible⟩)])

/-- The contributions of all surviving questions, in order. -/
def contribsOf (title : ConvQuestion → String) (slug : String)
    (initDirs : List String) (qs : List ConvQuestion) :
    List (Option ℕ × QuestionAlt) :=
  (qs.foldl (contribStep title slug) (initDirs, [])).2

theorem mem_gidsOf (cs : List (Option ℕ × QuestionAlt)) (gid : ℕ) :
    gid ∈ gidsOf cs ↔ ∃ c ∈ cs, c.1 = some gid := by
  simp [gidsOf, List.mem_filterMap]

theorem gidAlts_append (gid : ℕ) (cs : List (Option ℕ × QuestionAlt))
    (c : Option ℕ × QuestionAlt) :
    gidAlts gid (cs ++ [c])
      = gidAlts gid cs ++ (if c.1 = some gid then [c.2] else []) := by
  unfold gidAlts
  rw [List.filter_append, List.map_append]
  by_cases h : c.1 = some gid
  · simp [List.filter, h]
  · simp [List.filter, h]

theorem addAlt_of_not_wraps (gid : ℕ) (alt : QuestionAlt) (l : List ZoneEntry)
    (h : l.any (ZoneEntry.wrapsGid gid) = false) :
    l.map (ZoneEntry.addAlt gid alt) = l := by
  have hall : ∀ e ∈ l, ZoneEntry.wrapsGid gid e = false := by
    intro e he
    have := (List.any_eq_false.mp h) e he
    simpa using this
  have hid : ∀ e ∈ l, ZoneEntry.addAlt gid alt e = e := by
    intro e he
    have := hall e he
    cases e with
    | single a => rfl
    | groupWrapper g n p alts =>
      simp only [ZoneEntry.wrapsGid, decide_eq_false_iff_not] at this
      simp [ZoneEntry.addAlt, this]
  calc l.map (ZoneEntry.addAlt gid alt) = l.map id := List.map_congr_left hid
    _ = l := List.map_id l

theorem specEntries_any_wraps (groups : List (ℕ × GroupRec))
    (gid : ℕ) (cs : List (Option ℕ × QuestionAlt)) :
    (specEntries groups cs).any (ZoneEntry.wrapsGid gid) = true ↔ gid ∈ gidsOf cs := by
  induction cs using specEntries.induct groups with
  | case1 => simp [specEntries, gidsOf]
  | case2 alt rest ih =>
    simp only [specEntries, List.any_cons, ZoneEntry.wrapsGid, Bool.false_or]
    rw [ih]
    simp [gidsOf]
  | case3 g alt rest ih =>
    simp only [specEntries, List.any_cons]
    by_cases hg : g = gid
    · subst hg
      simp only [ZoneEntry.wrapsGid, decide_eq_true_eq]
      constructor
      · intro _
        rw [mem_gidsOf]
        exact ⟨(some g, alt), by simp, rfl⟩
      · intro _
        simp
    · simp only [ZoneEntry.wrapsGid]
      rw [show (decide (g = gid)) = false by simp [hg], Bool.false_or, ih]
      rw [mem_gidsOf, mem_gidsOf]
      constructor
      · rintro ⟨c, hc, hc1⟩
        have := (List.mem_filter.mp hc).1
        exact ⟨c, List.mem_cons_of_mem _ this, hc1⟩
      · rintro ⟨c, hc, hc1⟩
        rcases List.mem_cons.mp hc with hc | hc
        · rw [hc] at hc1
          simp at hc1
          exact absurd hc1 hg
        · refine ⟨c, List.mem_filter.mpr ⟨hc, ?_⟩, hc1⟩
          simp only [hc1, decide_eq_true_eq]
          intro he
          injection he with he
          exact hg he.symm

theorem filter_append_one {α : Type} (p : α → Bool) (l : List α) (c : α) :
    (l ++ [c]).filter p = l.filter p ++ if p c then [c] else [] := by
  rw [List.filter_append]
  by_cases h : p c <;> simp [List.filter, h]

theorem specEntries_append_single (groups : List (ℕ × GroupRec)) (alt : QuestionAlt)
    (cs : List (Option ℕ × QuestionAlt)) :
    specEntries groups (cs ++ [(none, alt)])
      = specEntries groups cs ++ [ZoneEntry.single alt] := by
  induction cs using specEntries.induct groups with
  | case1 => simp [specEntries]
  | case2 a rest ih =>
    rw [List.cons_append]
    simp only [specEntries]
    rw [ih, List.cons_append]
  | case3 g a rest ih =>
    rw [List.cons_append]
    simp only [specEntries]
    rw [gidAlts_append, filter_append_one]
    simp only [show (((none : Option ℕ), alt)).1 = none from rfl]
    rw [if_neg (by simp)]
    rw [show (decide ¬ (none : Option ℕ) = some g) = true by simp]
    simp only [if_pos]
    rw [ih, List.append_nil, List.cons_append]

theorem specEntries_append_new_group (groups : List (ℕ × GroupRec)) (gid : ℕ)
    (alt : QuestionAlt) (cs : List (Option ℕ × QuestionAlt))
    (hnew : gid ∉ gidsOf cs) :
    specEntries groups (cs ++ [(some gid, alt)])
      = specEntries groups cs
        ++ [ZoneEntry.groupWrapper gid ((lookupGroup groups gid).getD ⟨0, 0, 1⟩).pick_count
              ((lookupGroup groups gid).getD ⟨0, 0, 1⟩).question_points [alt]] := by
  induction cs using specEntries.induct groups with
  | case1 => simp [specEntries, gidAlts]
  | case2 a rest ih =>
    rw [List.cons_append]
    simp only [specEntries]
    rw [ih (by simpa [gidsOf] using hnew), List.cons_append]
  | case3 g a rest ih =>
    have hgne : g ≠ gid := by
      intro he
      exact hnew (by rw [mem_gidsOf]; exact ⟨(some g, a), by simp, by rw [he]⟩)
    rw [List.cons_append]
    simp only [specEntries]
    rw [gidAlts_append, filter_append_one]
    simp only [show (((some gid : Option ℕ), alt)).1 = some gid from rfl]
    rw [if_neg (by simp; intro he; exact hgne he.symm)]
    rw [show (decide ¬ (some gid : Option ℕ) = some g) = true by
      simp
      intro he
      exact hgne he.symm]
    simp only [if_pos]
    rw [ih ?hrest, List.append_nil, List.cons_append]
    case hrest =>
      intro hmm
      rw [mem_gidsOf] at hmm
      obtain ⟨c, hc, hc1⟩ := hmm
      have hcr := (List.mem_filter.mp hc).1
      exact hnew (by
        rw [mem_gidsOf]
        exact ⟨c, List.mem_cons_of_mem _ hcr, hc1⟩)

theorem specEntries_append_member (groups : List (ℕ × GroupRec)) (gid : ℕ)
    (alt : QuestionAlt) (cs : List (Option ℕ × QuestionAlt))
    (hmem : gid ∈ gidsOf cs) :
    specEntries groups (cs ++ [(some gid, alt)])
      = (specEntries groups cs).map (ZoneEntry.addAlt gid alt) := by
  induction cs using specEntries.induct groups with
  | case1 => simp [gidsOf] at hmem
  | case2 a rest ih =>
    rw [List.cons_append]
    simp only [specEntries, List.map_cons]
    rw [ih (by simpa [gidsOf] using hmem)]
    rfl
  | case3 g a rest ih =>
    rw [List.cons_append]
    simp only [specEntries, List.map_cons]
    by_cases hg : g = gid
    · subst hg
      rw [gidAlts_append, filter_append_one]
      have hnot : (specEntries groups (rest.filter (fun c => decide ¬ c.1 = some g))).any
          (ZoneEntry.wrapsGid g) = false := by
        rw [Bool.eq_false_iff]
        intro hany
        have hmm := (specEntries_any_wraps groups g _).mp hany
        rw [mem_gidsOf] at hmm
        obtain ⟨c, hc, hc1⟩ := hmm
        have := (List.mem_filter.mp hc).2
        simp [hc1] at this
      have hnot2 := hnot
      simp only [decide_not] at hnot2
      simp [ZoneEntry.addAlt]
      exact (addAlt_of_not_wraps g alt _ hnot2).symm
    · rw [gidAlts_append, filter_append_one]
      simp only [show (((some gid : Option ℕ), alt)).1 = some gid from rfl]
      rw [if_neg (by simp; intro he; exact hg he.symm)]
      rw [show (decide ¬ (some gid : Option ℕ) = some g) = true by
        simp
        intro he
        exact hg he.symm]
      simp only [if_pos]
      have hmem2 : gid ∈ gidsOf (rest.filter (fun c => decide ¬ c.1 = some g)) := by
        rw [mem_gidsOf]
        rw [mem_gidsOf] at hmem
        obtain ⟨c, hc, hc1⟩ := hmem
        rcases List.mem_cons.mp hc with hc | hc
        · rw [hc] at hc1
          simp at hc1
          exact absurd hc1 (fun he => hg he)
        · refine ⟨c, List.mem_filter.mpr ⟨hc, ?_⟩, hc1⟩
          simp only [hc1, decide_eq_true_eq]
          simp
          intro he
          exact hg he.symm
      rw [ih hmem2]
      simp [ZoneEntry.addAlt, hg]

theorem assemble_loop_spec (groups : List (ℕ × GroupRec)) (title : ConvQuestion → String)
    (render script : ConvQuestion → String) (images : ConvQuestion → List String)
    (slug topic : String) :
    ∀ (qs : List ConvQuestion) (st : ConvState) (cs : List (Option ℕ × QuestionAlt)),
    st.entries = specEntries groups cs →
    (∀ q ∈ qs, ∀ gid, q.quiz_group_id = some gid → (lookupGroup groups gid).isSome) →
    ∃ st', List.foldl (fun ost q => ost.bind
        (fun s => convStep groups title render script images slug topic s q)) (some st) qs
        = some st'
      ∧ st'.existingDirs = (List.foldl (contribStep title slug) (st.existingDirs, cs) qs).1
      ∧ st'.entries
          = specEntries groups (List.foldl (contribStep title slug) (st.existingDirs, cs) qs).2 := by
  intro qs
  induction qs with
  | nil =>
    intro st cs hent _
    exact ⟨st, rfl, rfl, by simpa using hent⟩
  | cons q qs ih =>
    intro st cs hent hres
    rw [List.foldl_cons, List.foldl_cons]
    by_cases ht : title q = ""
    · have hcv : convStep groups title render script images slug topic st q = some st := by
        simp [convStep, ht]
      have hcb : contribStep title slug (st.existingDirs, cs) q = (st.existingDirs, cs) := by
        simp [contribStep, ht]
      have hbind : ((some st).bind
          (fun s => convStep groups title render script images slug topic s q)) = some st := hcv
      rw [hbind, hcb]
      exact ih st cs hent (fun r hr => hres r (List.mem_cons_of_mem q hr))
    · have hcb : contribStep title slug (st.existingDirs, cs) q
          = (st.existingDirs ++ [dedupName st.existingDirs (fileNameOnly (title q))],
             cs ++ [(q.quiz_group_id,
               ⟨slug ++ "/" ++ dedupName st.existingDirs (fileNameOnly (title q)),
                 q.points_possible⟩)]) := by
        simp only [contribStep]
        rw [if_neg ht]
      cases hq : q.quiz_group_id with
      | none =>
        have hcv : convStep groups title render script images slug topic st q
            = some ⟨st.existingDirs ++ [dedupName st.existingDirs (fileNameOnly (title q))],
                st.files ++ questionFiles topic render script images
                  (dedupName st.existingDirs (fileNameOnly (title q))) (title q) q,
                st.entries ++ [.single ⟨slug ++ "/"
                  ++ dedupName st.existingDirs (fileNameOnly (title q)), q.points_possible⟩]⟩ := by
          simp only [convStep]
          rw [if_neg ht]
          simp only [hq]
        have hbind : ((some st).bind
            (fun s => convStep groups title render script images slug topic s q))
            = some ⟨st.existingDirs ++ [dedupName st.existingDirs (fileNameOnly (title q))],
                st.files ++ questionFiles topic render script images
                  (dedupName st.existingDirs (fileNameOnly (title q))) (title q) q,
                st.entries ++ [.single ⟨slug ++ "/"
                  ++ dedupName st.existingDirs (fileNameOnly (title q)), q.points_possible⟩]⟩ := hcv
        rw [hbind, hcb, hq]
        have hent1 : (st.entries ++ [ZoneEntry.single ⟨slug ++ "/"
              ++ dedupName st.existingDirs (fileNameOnly (title q)), q.points_possible⟩])
            = specEntries groups (cs ++ [(none,
              ⟨slug ++ "/" ++ dedupName st.existingDirs (fileNameOnly (title q)),
                q.points_possible⟩)]) := by
          rw [specEntries_append_single, hent]
        exact ih _ _ hent1 (fun r hr => hres r (List.mem_cons_of_mem q hr))
      | some gid =>
        obtain ⟨grp, hlk⟩ := Option.isSome_iff_exists.mp
          (hres q (List.mem_cons_self q qs) gid hq)
        by_cases hgm : gid ∈ gidsOf cs
        · have hany : st.entries.any (ZoneEntry.wrapsGid gid) = true := by
            rw [hent]
            exact (specEntries_any_wraps groups gid cs).mpr hgm
          have hcv : convStep groups title render script images slug topic st q
              = some ⟨st.existingDirs ++ [dedupName st.existingDirs (fileNameOnly (title q))],
                  st.files ++ questionFiles topic render script images
                    (dedupName st.existingDirs (fileNameOnly (title q))) (title q) q,
                  st.entries.map (ZoneEntry.addAlt gid ⟨slug ++ "/"
                    ++ dedupName st.existingDirs (fileNameOnly (title q)), q.points_possible⟩)⟩ := by
            simp only [convStep]
            rw [if_neg ht]
            simp only [hq, hlk]
            rw [if_pos hany]
          have hbind := hcv
          rw [show ((some st).bind
              (fun s => convStep groups title render script images slug topic s q))
              = convStep groups title render script images slug topic st q from rfl]
          rw [hcv, hcb, hq]
          have hent1 : (st.entries.map (ZoneEntry.addAlt gid ⟨slug ++ "/"
                ++ dedupName st.existingDirs (fileNameOnly (title q)), q.points_possible⟩))
              = specEntries groups (cs ++ [(some gid,
                ⟨slug ++ "/" ++ dedupName st.existingDirs (fileNameOnly (title q)),
                  q.points_possible⟩)]) := by
            rw [specEntries_append_member groups gid _ cs hgm, hent]
          exact ih _ _ hent1 (fun r hr => hres r (List.mem_cons_of_mem q hr))
        · have hany : st.entries.any (ZoneEntry.wrapsGid gid) = false := by
            rw [hent, Bool.eq_false_iff]
            intro hc
            exact hgm ((specEntries_any_wraps groups gid cs).mp hc)
          have hcv : convStep groups title render script images slug topic st q
              = some ⟨st.existingDirs ++ [dedupName st.existingDirs (fileNameOnly (title q))],
                  st.files ++ questionFiles topic render script images
                    (dedupName st.existingDirs (fileNameOnly (title q))) (title q) q,
                  st.entries ++ [.groupWrapper gid grp.pick_count grp.question_points
                    [⟨slug ++ "/" ++ dedupName st.existingDirs (fileNameOnly (title q)),
                      q.points_possible⟩]]⟩ := by
            simp only [convStep]
            rw [if_neg ht]
            simp only [hq, hlk]
            rw [if_neg (by rw [hany]; simp)]
          rw [show ((some st).bind
              (fun s => convStep groups title render script images slug topic s q))
              = convStep groups title render script images slug topic st q from rfl]
          rw [hcv, hcb, hq]
          have hent1 : (st.entries ++ [ZoneEntry.groupWrapper gid grp.pick_count
                grp.question_points [⟨slug ++ "/"
                  ++ dedupName st.existingDirs (fileNameOnly (title q)), q.points_possible⟩]])
              = specEntries groups (cs ++ [(some gid,
                ⟨slug ++ "/" ++ dedupName st.existingDirs (fileNameOnly (title q)),
                  q.points_possible⟩)]) := by
            rw [specEntries_append_new_group groups gid _ cs hgm, hent, hlk]
            simp
          exact ih _ _ hent1 (fun r hr => hres r (List.mem_cons_of_mem q hr))

/-- C6: under the hypothesis that every referenced group id is present
in the reconciled group mapping, the conversion loop succeeds and its
assessment question list is exactly the claim's description
(`specEntries`): one wrapper per group with surviving members, created
at the position of the group's first surviving member, carrying the
group's pick-count and per-member points and listing all surviving
members as alternatives in order; ungrouped questions appear as
standalone entries in position. -/
theorem c6_group_wrapper_aggregation (groups : List (ℕ × GroupRec))
    (title : ConvQuestion → String) (render script : ConvQuestion → String)
    (images : ConvQuestion → List String) (slug topic : String)
    (initDirs : List String) (qs : List ConvQuestion)
    (hres : ∀ q ∈ qs, ∀ gid, q.quiz_group_id = some gid → (lookupGroup groups gid).isSome) :
    ∃ st, assemble groups title render script images slug topic initDirs qs = some st
      ∧ st.entries = specEntries groups (contribsOf title slug initDirs qs) := by
  obtain ⟨st', h1, _, h3⟩ := assemble_loop_spec groups title render script images slug topic qs
    ⟨initDirs, [], []⟩ [] (by simp [specEntries]) hres
  exact ⟨st', h1, by simpa [contribsOf] using h3⟩

/-- Witness for `c6_group_wrapper_aggregation` at a concrete input:
an ungrouped question followed by two members of group 5. -/
theorem c6_group_wrapper_aggregation_witness :
    (∀ q ∈ ([⟨1, "essay_question", none, 1⟩, ⟨3, "essay_question", some 5, 2⟩,
        ⟨4, "essay_question", some 5, 2⟩] : List ConvQuestion), ∀ gid,
        q.quiz_group_id = some gid → (lookupGroup groupsEx gid).isSome)
    ∧ ∃ st, assemble groupsEx titleEx renderEx scriptEx imagesEx "quiz" "None" []
          [⟨1, "essay_question", none, 1⟩, ⟨3, "essay_question", some 5, 2⟩,
            ⟨4, "essay_question", some 5, 2⟩] = some st
        ∧ st.entries = specEntries groupsEx (contribsOf titleEx "quiz" []
            [⟨1, "essay_question", none, 1⟩, ⟨3, "essay_question", some 5, 2⟩,
              ⟨4, "essay_question", some 5, 2⟩]) :=
  ⟨by decide, c6_group_wrapper_aggregation groupsEx titleEx renderEx scriptEx imagesEx
    "quiz" "None" [] _ (by decide)⟩

/-! ## Sanitizer (`clean_question_text`, canvas.py lines 187-198)

`re.sub(r"<link[^>]*>", "", text)` and
`re.sub(r"<script[^>]*>.*?</script>", "", text)` are embedded as
single left-to-right scanning passes.  For these two patterns the
regex engine's behaviour is deterministic: `[^>]*` (greedy) can only
stop at the first `>`, and `.*?` (lazy, `.` not matching newline)
stops at the earliest `</script>` reachable without crossing a
newline. -/

/-- Matches `[^>]*>`: consumes up to and including the first `>`. -/
def afterTagClose : Str → Option Str
  | [] => none
  | c :: rest => if c = '>' then some rest else afterTagClose rest

/-- Matches `.*?</script>` with `.` not matching newline: consumes the
shortest newline-free stretch followed by `</script>`. -/
def lazyToScriptEnd : Str → Option Str
  | [] => none
  | c :: rest =>
    match dropPrefixCh "</script>".data (c :: rest) with
    | some rem => some rem
    | none => if c = '\n' then none else lazyToScriptEnd rest

theorem afterTagClose_length : ∀ (s t : Str), afterTagClose s = some t → t.length < s.length := by
  intro s
  induction s with
  | nil => intro t h; simp [afterTagClose] at h
  | cons c rest ih =>
    intro t h
    simp only [afterTagClose] at h
    split at h
    · injection h with h
      simp [← h]
    · have := ih t h
      simp only [List.length_cons]
      omega

theorem lazyToScriptEnd_length : ∀ (s t : Str), lazyToScriptEnd s = some t →
    t.length < s.length := by
  intro s
  induction s with
  | nil => intro t h; simp [lazyToScriptEnd] at h
  | cons c rest ih =>
    intro t h
    simp only [lazyToScriptEnd] at h
    split at h
    · rename_i rem heq
      injection h with h
      subst h
      have hlen := dropPrefixCh_length _ _ _ heq
      have hp : ("</script>".data).length = 9 := by decide
      simp only [List.length_cons] at hlen ⊢
      omega
    · split at h
      · exact absurd h (by simp)
      · have := ih t h
        simp only [List.length_cons]
        omega

/-- One `re.sub` pass for `<link[^>]*>` (canvas.py line 195). -/
def subLinkPass (s : Str) : Str :=
  match s with
  | [] => []
  | c :: rest =>
    match h1 : dropPrefixCh "<link".data (c :: rest) with
    | some afterOpen =>
      match h2 : afterTagClose afterOpen with
      | some rem => subLinkPass rem
      | none => c :: subLinkPass rest
    | none => c :: subLinkPass rest
termination_by s.length
decreasing_by
  · have ha := dropPrefixCh_length _ _ _ h1
    have hb := afterTagClose_length _ _ h2
    simp only [List.length_cons] at ha ⊢
    omega
  · simp
  · simp

/-- One `re.sub` pass for `<script[^>]*>.*?</script>`
(canvas.py line 196). -/
def subScriptPass (s : Str) : Str :=
  match s with
  | [] => []
  | c :: rest =>
    match h1 : dropPrefixCh "<script".data (c :: rest) with
    | some afterOpen =>
      match h2 : afterTagClose afterOpen with
      | some afterTag =>
        match h3 : lazyToScriptEnd afterTag with
        | some rem => subScriptPass rem
        | none => c :: subScriptPass rest
      | none => c :: subScriptPass rest
    | none => c :: subScriptPass rest
termination_by s.length
decreasing_by
  · have ha := dropPrefixCh_length _ _ _ h1
    have hb := afterTagClose_length _ _ h2
    have hc := lazyToScriptEnd_length _ _ h3
    simp only [List.length_cons] at ha ⊢
    omega
  · simp
  · simp
  · simp

/-- `clean_question_text` (canvas.py lines 187-198): strip link tags,
then strip script blocks. -/
def clean_question_text (text : Str) : Str :=
  subScriptPass (subLinkPass text)

theorem afterTagClose_skip : ∀ (inner t : Str), (∀ c ∈ inner, c ≠ '>') →
    afterTagClose (inner ++ '>' :: t) = some t := by
  intro inner
  induction inner with
  | nil => intro t _; simp [afterTagClose]
  | cons c rest ih =>
    intro t hc
    rw [List.cons_append]
    simp only [afterTagClose]
    rw [if_neg (hc c (List.mem_cons_self c rest))]
    exact ih t (fun d hd => hc d (List.mem_cons_of_mem c hd))

theorem subLinkPass_cons_nomatch (c : Char) (rest : Str)
    (h : dropPrefixCh "<link".data (c :: rest) = none) :
    subLinkPass (c :: rest) = c :: subLinkPass rest := by
  simp only [subLinkPass]
  split <;> simp_all

theorem subLinkPass_cons_match (c : Char) (rest afterOpen rem : Str)
    (h1 : dropPrefixCh "<link".data (c :: rest) = some afterOpen)
    (h2 : afterTagClose afterOpen = some rem) :
    subLinkPass (c :: rest) = subLinkPass rem := by
  simp only [subLinkPass]
  split
  · split <;> simp_all
  · simp_all

theorem subScriptPass_cons_nomatch (c : Char) (rest : Str)
    (h : dropPrefixCh "<script".data (c :: rest) = none) :
    subScriptPass (c :: rest) = c :: subScriptPass rest := by
  simp only [subScriptPass]
  split <;> simp_all

theorem subScriptPass_cons_match (c : Char) (rest afterOpen afterTag rem : Str)
    (h1 : dropPrefixCh "<script".data (c :: rest) = some afterOpen)
    (h2 : afterTagClose afterOpen = some afterTag)
    (h3 : lazyToScriptEnd afterTag = some rem) :
    subScriptPass (c :: rest) = subScriptPass rem := by
  simp only [subScriptPass]
  split
  · split
    · split <;> simp_all
    · simp_all
  · simp_all

theorem dropPrefixCh_cons_ne (p : Char) (ps : Str) (c : Char) (rest : Str)
    (h : c ≠ p) : dropPrefixCh (p :: ps) (c :: rest) = none := by
  simp only [dropPrefixCh]
  rw [if_neg (fun he => h he.symm)]

theorem subLinkPass_append : ∀ (pre s : Str), (∀ c ∈ pre, c ≠ '<') →
    subLinkPass (pre ++ s) = pre ++ subLinkPass s := by
  intro pre
  induction pre with
  | nil => intro s _; simp
  | cons c rest ih =>
    intro s hc
    rw [List.cons_append]
    rw [subLinkPass_cons_nomatch c (rest ++ s)
      (dropPrefixCh_cons_ne _ _ _ _ (hc c (List.mem_cons_self c rest)))]
    rw [ih s (fun d hd => hc d (List.mem_cons_of_mem c hd))]
    rfl

theorem subScriptPass_append : ∀ (pre s : Str), (∀ c ∈ pre, c ≠ '<') →
    subScriptPass (pre ++ s) = pre ++ subScriptPass s := by
  intro pre
  induction pre with
  | nil => intro s _; simp
  | cons c rest ih =>
    intro s hc
    rw [List.cons_append]
    rw [subScriptPass_cons_nomatch c (rest ++ s)
      (dropPrefixCh_cons_ne _ _ _ _ (hc c (List.mem_cons_self c rest)))]
    rw [ih s (fun d hd => hc d (List.mem_cons_of_mem c hd))]
    rfl

theorem subLinkPass_id (s : Str) (h : ∀ c ∈ s, c ≠ '<') : subLinkPass s = s := by
  have := subLinkPass_append s [] h
  simpa [subLinkPass] using this

theorem subScriptPass_id (s : Str) (h : ∀ c ∈ s, c ≠ '<') : subScriptPass s = s := by
  have := subScriptPass_append s [] h
  simpa [subScriptPass] using this

theorem lazyToScriptEnd_cons_nomatch (c : Char) (rest : Str)
    (h : dropPrefixCh "</script>".data (c :: rest) = none) (hn : c ≠ '\n') :
    lazyToScriptEnd (c :: rest) = lazyToScriptEnd rest := by
  simp only [lazyToScriptEnd]
  split
  · simp_all
  · rw [if_neg hn]

theorem lazyToScriptEnd_skip : ∀ (body t : Str), (∀ c ∈ body, c ≠ '\n' ∧ c ≠ '<') →
    lazyToScriptEnd (body ++ "</script>".data ++ t) = some t := by
  intro body
  induction body with
  | nil =>
    intro t _
    show lazyToScriptEnd ("</script>".data ++ t) = some t
    have hdp : dropPrefixCh "</script>".data ("</script>".data ++ t) = some t := by
      have : ∀ (p : Str) (t : Str), dropPrefixCh p (p ++ t) = some t := by
        intro p
        induction p with
        | nil => intro t; simp [dropPrefixCh]
        | cons x xs ihp =>
          intro t
          rw [List.cons_append]
          simp only [dropPrefixCh, if_pos rfl]
          exact ihp t
      exact this _ t
    simp only [lazyToScriptEnd]
    split <;> simp_all
  | cons c rest ih =>
    intro t hc
    rw [List.cons_append, List.cons_append]
    have hne : dropPrefixCh "</script>".data (c :: (rest ++ "</script>".data ++ t)) = none := by
      refine dropPrefixCh_cons_ne _ _ _ _ ?_
      exact (hc c (List.mem_cons_self c rest)).2
    rw [lazyToScriptEnd_cons_nomatch _ _ hne (hc c (List.mem_cons_self c rest)).1]
    exact ih t (fun d hd => hc d (List.mem_cons_of_mem c hd))

theorem dropPrefixCh_self : ∀ (p t : Str), dropPrefixCh p (p ++ t) = some t := by
  intro p
  induction p with
  | nil => intro t; simp [dropPrefixCh]
  | cons x xs ihp =>
    intro t
    rw [List.cons_append]
    simp only [dropPrefixCh, if_pos rfl]
    exact ihp t

/-- C9 counterexample: a script block whose body spans a newline
survives sanitization unchanged — `.` in `.*?` does not match newlines
(no `re.DOTALL`), so `<script>a\nb</script>` is written through
verbatim and a script block does survive into the output. -/
theorem c9_counterexample :
    clean_question_text "<script>a\nb</script>".data
      = "<script>".data ++ "a\nb".data ++ "</script>".data := by
  simp [clean_question_text, subLinkPass, subScriptPass, dropPrefixCh, afterTagClose,
    lazyToScriptEnd]

/-- The link-substitution pass leaves a script construct untouched. -/
theorem subLinkPass_script_block (inner body post : Str)
    (hinner : ∀ c ∈ inner, c ≠ '>' ∧ c ≠ '<')
    (hbody : ∀ c ∈ body, c ≠ '\n' ∧ c ≠ '<')
    (hpost : ∀ c ∈ post, c ≠ '<') :
    subLinkPass ("<script".data ++ (inner ++ '>' :: (body ++ "</script>".data ++ post)))
      = "<script".data ++ (inner ++ '>' :: (body ++ "</script>".data ++ post)) := by
  have hskip1 : ∀ c ∈ ("script".data ++ inner ++ ['>'] ++ body), c ≠ '<' := by
    intro c hcm
    rcases List.mem_append.mp hcm with hcm | hcm
    · rcases List.mem_append.mp hcm with hcm | hcm
      · rcases List.mem_append.mp hcm with hcm | hcm
        · exact (by decide : ∀ c ∈ "script".data, c ≠ '<') c hcm
        · exact (hinner c hcm).2
      · exact (by decide : ∀ c ∈ (['>'] : Str), c ≠ '<') c hcm
    · exact (hbody c hcm).2
  have hnm1 : dropPrefixCh "<link".data
      ('<' :: ("script".data ++ (inner ++ '>' :: (body ++ "</script>".data ++ post)))) = none := by
    simp [dropPrefixCh]
  have hnm2 : dropPrefixCh "<link".data ('<' :: ("/script>".data ++ post)) = none := by
    simp [dropPrefixCh]
  have hform : ("script".data ++ (inner ++ '>' :: (body ++ "</script>".data ++ post)))
      = ("script".data ++ inner ++ ['>'] ++ body) ++ ("</script>".data ++ post) := by
    simp [List.append_assoc]
  have hend : subLinkPass ("</script>".data ++ post) = "</script>".data ++ post := by
    have hone : subLinkPass ('<' :: ("/script>".data ++ post))
        = '<' :: subLinkPass ("/script>".data ++ post) :=
      subLinkPass_cons_nomatch _ _ hnm2
    have htwo : subLinkPass ("/script>".data ++ post) = "/script>".data ++ post := by
      refine subLinkPass_id _ ?_
      intro c hcm
      rcases List.mem_append.mp hcm with hcm | hcm
      · exact (by decide : ∀ c ∈ "/script>".data, c ≠ '<') c hcm
      · exact hpost c hcm
    calc subLinkPass ("</script>".data ++ post)
        = subLinkPass ('<' :: ("/script>".data ++ post)) := rfl
      _ = '<' :: subLinkPass ("/script>".data ++ post) := hone
      _ = '<' :: ("/script>".data ++ post) := by rw [htwo]
      _ = "</script>".data ++ post := rfl
  calc subLinkPass ("<script".data ++ (inner ++ '>' :: (body ++ "</script>".data ++ post)))
      = subLinkPass ('<' :: ("script".data ++ (inner ++ '>' :: (body ++ "</script>".data ++ post)))) := rfl
    _ = '<' :: subLinkPass ("script".data ++ (inner ++ '>' :: (body ++ "</script>".data ++ post))) :=
        subLinkPass_cons_nomatch _ _ hnm1
    _ = '<' :: subLinkPass (("script".data ++ inner ++ ['>'] ++ body) ++ ("</script>".data ++ post)) := by
        rw [hform]
    _ = '<' :: (("script".data ++ inner ++ ['>'] ++ body) ++ subLinkPass ("</script>".data ++ post)) := by
        rw [subLinkPass_append _ _ hskip1]
    _ = '<' :: (("script".data ++ inner ++ ['>'] ++ body) ++ ("</script>".data ++ post)) := by
        rw [hend]
    _ = "<script".data ++ (inner ++ '>' :: (body ++ "</script>".data ++ post)) := by
        rw [← hform]
        rfl

/-- C9 (amended): sanitization is one left-to-right pass of each
pattern: it removes every `<link...>` tag and every
`<script...>body</script>` block whose body stays on one line, but a
script block whose body spans a newline survives (see the
counterexample). -/
theorem c9_sanitize_single_pass (pre inner body post : Str)
    (hpre : ∀ c ∈ pre, c ≠ '<')
    (hinner : ∀ c ∈ inner, c ≠ '>' ∧ c ≠ '<')
    (hbody : ∀ c ∈ body, c ≠ '\n' ∧ c ≠ '<')
    (hpost : ∀ c ∈ post, c ≠ '<') :
    clean_question_text (pre ++ "<link".data ++ inner ++ '>' :: post) = pre ++ post
    ∧ clean_question_text
        (pre ++ "<script".data ++ inner ++ '>' :: (body ++ "</script>".data ++ post))
      = pre ++ post := by
  constructor
  · unfold clean_question_text
    have hassoc : pre ++ "<link".data ++ inner ++ '>' :: post
        = pre ++ ("<link".data ++ (inner ++ '>' :: post)) := by
      simp [List.append_assoc]
    rw [hassoc, subLinkPass_append _ _ hpre]
    have hmatch : subLinkPass ("<link".data ++ (inner ++ '>' :: post)) = subLinkPass post := by
      refine subLinkPass_cons_match '<' ("link".data ++ (inner ++ '>' :: post))
        (inner ++ '>' :: post) post ?_ ?_
      · exact dropPrefixCh_self "<link".data (inner ++ '>' :: post)
      · exact afterTagClose_skip inner post (fun c hc => (hinner c hc).1)
    rw [hmatch, subLinkPass_id post hpost]
    refine subScriptPass_id _ ?_
    intro c hc
    rcases List.mem_append.mp hc with hc | hc
    · exact hpre c hc
    · exact hpost c hc
  · unfold clean_question_text
    have hassoc : pre ++ "<script".data ++ inner ++ '>' :: (body ++ "</script>".data ++ post)
        = pre ++ ("<script".data ++ (inner ++ '>' :: (body ++ "</script>".data ++ post))) := by
      simp [List.append_assoc]
    rw [hassoc, subLinkPass_append _ _ hpre]
    rw [subLinkPass_script_block inner body post hinner hbody hpost]
    rw [subScriptPass_append _ _ hpre]
    have hmatch : subScriptPass ("<script".data ++ (inner ++ '>' :: (body ++ "</script>".data ++ post)))
        = subScriptPass post := by
      refine subScriptPass_cons_match '<'
        ("script".data ++ (inner ++ '>' :: (body ++ "</script>".data ++ post)))
        (inner ++ '>' :: (body ++ "</script>".data ++ post))
        (body ++ "</script>".data ++ post) post ?_ ?_ ?_
      · exact dropPrefixCh_self "<script".data _
      · exact afterTagClose_skip inner _ (fun c hc => (hinner c hc).1)
      · exact lazyToScriptEnd_skip body post hbody
    rw [hmatch, subScriptPass_id post hpost]

/-- Witness for `c9_sanitize_single_pass` at a concrete input. -/
theorem c9_sanitize_single_pass_witness :
    ((∀ c ∈ "a ".data, c ≠ '<')
      ∧ (∀ c ∈ " relx".data, c ≠ '>' ∧ c ≠ '<')
      ∧ (∀ c ∈ "alert(1)".data, c ≠ '\n' ∧ c ≠ '<')
      ∧ (∀ c ∈ " b".data, c ≠ '<'))
    ∧ (clean_question_text ("a ".data ++ "<link".data ++ " relx".data ++ '>' :: " b".data)
        = "a ".data ++ " b".data
      ∧ clean_question_text ("a ".data ++ "<script".data ++ " relx".data
          ++ '>' :: ("alert(1)".data ++ "</script>".data ++ " b".data))
        = "a ".data ++ " b".data) :=
  ⟨⟨by decide, by decide, by decide, by decide⟩,
    c9_sanitize_single_pass "a ".data " relx".data "alert(1)".data " b".data
      (by decide) (by decide) (by decide) (by decide)⟩

/-! ## Image extraction (`handle_images`, canvas.py lines 201-258)

The pattern `(<p>)?(<img[^>]*src="([^"]+)"[^>]*>)(</p>)?` is embedded
following the regex engine's backtracking behaviour: the greedy `[^>]*`
before `src="` starts at the longest non-`>` stretch and backs off one
character at a time (`srcSearch`); the greedy `[^"]+` can only stop at
the first `"` after it; `[^>]*>` consumes up to the first `>`; the
optional `<p>`/`</p>` groups match greedily, and if `<p>` was consumed
the `<img` cannot alternatively match at the same start position. -/

/-- One attempt of `[^>]*src="([^"]+)"[^>]*>` with the leading `[^>]*`
fixed to exactly `k` characters: returns the captured url and the
remainder after the closing `>`. -/
def trySplit (t : Str) (k : ℕ) : Option (Str × Str) :=
  match dropPrefixCh "src=\x22".data (t.drop k) with
  | none => none
  | some afterSrc =>
    let url := afterSrc.takeWhile (fun c => c ≠ '"')
    if url = [] then none
    else
      match afterSrc.drop url.length with
      | '"' :: rest2 =>
        match afterTagClose rest2 with
        | some rem => some (url, rem)
        | none => none
      | _ => none

/-- Greedy backtracking of the leading `[^>]*`: try `k` characters
first, then shorter stretches. -/
def srcSearch (t : Str) : ℕ → Option (Str × Str)
  | 0 => trySplit t 0
  | k + 1 =>
    match trySplit t (k + 1) with
    | some r => some r
    | none => srcSearch t k

/-- The mandatory group 2 `<img[^>]*src="([^"]+)"[^>]*>` matched at the
start of `s`: the matched tag text, the url capture, and the rest. -/
def matchImgTag (s : Str) : Option (Str × Str × Str) :=
  match dropPrefixCh "<img".data s with
  | none => none
  | some t =>
    match srcSearch t ((t.takeWhile (fun c => c ≠ '>')).length) with
    | none => none
    | some (url, rem) =>
      some ("<img".data ++ t.take (t.length - rem.length), url, rem)

/-- One match of the full image pattern. -/
structure ImgMatch where
  openedP : Bool
  tag : Str
  url : Str
  closedP : Bool
  rem : Str
deriving Repr, DecidableEq

/-- The full pattern attempted at the start of `s`.  When `<p>` is
present the image must follow it (the empty alternative of `(<p>)?`
would have to match `<img` against `<p…`, which cannot succeed). -/
def matchAt (s : Str) : Option ImgMatch :=
  match dropPrefixCh "<p>".data s with
  | some s1 =>
    match matchImgTag s1 with
    | some (tag, url, rem1) =>
      match dropPrefixCh "</p>".data rem1 with
      | some rem2 => some ⟨true, tag, url, true, rem2⟩
      | none => some ⟨true, tag, url, false, rem1⟩
    | none => none
  | none =>
    match matchImgTag s with
    | some (tag, url, rem1) =>
      match dropPrefixCh "</p>".data rem1 with
      | some rem2 => some ⟨false, tag, url, true, rem2⟩
      | none => some ⟨false, tag, url, false, rem1⟩
    | none => none

theorem trySplit_length (t : Str) (k : ℕ) (url rem : Str)
    (h : trySplit t k = some (url, rem)) : rem.length < t.length := by
  unfold trySplit at h
  split at h
  · simp at h
  · rename_i afterSrc heq
    have h5 := dropPrefixCh_length _ _ _ heq
    have hdl : (t.drop k).length ≤ t.length := by
      simp [List.length_drop]
    have hp : ("src=\x22".data).length = 5 := by decide
    simp only [] at h
    split at h
    · simp at h
    · split at h
      · rename_i c rest2 hdrop
        split at h
        · rename_i rem2 hclose
          injection h with h
          rw [Prod.mk.injEq] at h
          have hrl := afterTagClose_length _ _ hclose
          have hrest2 : rest2.length < afterSrc.length := by
            have : afterSrc.drop ((afterSrc.takeWhile (fun c => c ≠ '"')).length)
                = '"' :: rest2 := hdrop
            have hlen := congrArg List.length this
            simp [List.length_drop] at hlen
            omega
          rw [← h.2]
          omega
        · simp at h
      · simp at h

theorem srcSearch_length (t : Str) : ∀ (k : ℕ) (url rem : Str),
    srcSearch t k = some (url, rem) → rem.length < t.length := by
  intro k
  induction k with
  | zero =>
    intro url rem h
    exact trySplit_length t 0 url rem h
  | succ k ih =>
    intro url rem h
    unfold srcSearch at h
    split at h
    · rename_i x r1 heq
      injection h with h
      subst h
      exact trySplit_length t (k + 1) url rem heq
    · exact ih url rem h

theorem matchImgTag_length (s tag url rem : Str)
    (h : matchImgTag s = some (tag, url, rem)) : rem.length < s.length := by
  unfold matchImgTag at h
  split at h
  · simp at h
  · rename_i t heq
    have hs := dropPrefixCh_length _ _ _ heq
    split at h
    · simp at h
    · rename_i u1 r1 hsrc
      injection h with h
      rw [Prod.mk.injEq] at h
      have hsl := srcSearch_length t _ u1 r1 hsrc
      have h2 := h.2
      rw [Prod.mk.injEq] at h2
      rw [← h2.2]
      have hp : ("<img".data).length = 4 := by decide
      omega

theorem matchAt_length (s : Str) (m : ImgMatch) (h : matchAt s = some m) :
    m.rem.length < s.length := by
  unfold matchAt at h
  split at h
  · rename_i s1 hp
    have hps := dropPrefixCh_length _ _ _ hp
    have hpl : ("<p>".data).length = 3 := by decide
    split at h
    · rename_i tg u r1 himg
      have himgl := matchImgTag_length s1 tg u r1 himg
      split at h
      · rename_i rem2 hcp
        have := dropPrefixCh_length _ _ _ hcp
        have hcl : ("</p>".data).length = 4 := by decide
        injection h with h
        subst h
        simp only
        omega
      · injection h with h
        subst h
        simp only
        omega
    · simp at h
  · split at h
    · rename_i tg u r1 himg
      have himgl := matchImgTag_length s tg u r1 himg
      split at h
      · rename_i rem2 hcp
        have := dropPrefixCh_length _ _ _ hcp
        have hcl : ("</p>".data).length = 4 := by decide
        injection h with h
        subst h
        simp only
        omega
      · injection h with h
        subst h
        simp only
        omega
    · simp at h

/-- `re.finditer` over the original text: scan left to right, resuming
after each match. -/
def findImgMatches (s : Str) : List ImgMatch :=
  match s with
  | [] => []
  | c :: rest =>
    match h : matchAt (c :: rest) with
    | some m => m :: findImgMatches m.rem
    | none => findImgMatches rest
termination_by s.length
decreasing_by
  · have := matchAt_length _ _ h
    simpa using this
  · simp

/-- `re.search(r'alt="([^"]*)"', ...)`: the first position where
`alt="` is followed by a quote-free stretch and a closing quote. -/
def altSearch : Str → Option Str
  | [] => none
  | c :: rest =>
    match dropPrefixCh "alt=\x22".data (c :: rest) with
    | some t =>
      let run := t.takeWhile (fun c => c ≠ '"')
      match t.drop run.length with
      | '"' :: _ => some run
      | _ => altSearch rest
    | none => altSearch rest

/-- `image_file_extension` (canvas.py lines 201-208).  The default arm
is Python's `content_type.split("/")[1]`: the segment after the first
slash (a content type with no slash would raise in Python; here it
yields the empty string). -/
def image_file_extension (content_type : Str) : Str :=
  if content_type = "image/x-icon".data then "ico".data
  else if content_type = "image/svg+xml".data then "svg".data
  else ((content_type.dropWhile (fun c => c ≠ '/')).drop 1).takeWhile (fun c => c ≠ '/')

/-- A fixed content-type responder used in concrete image examples. -/
def ctPng : Str → Str := fun _ => "image/png".data

/-- One iteration of the `handle_images` loop (canvas.py lines 218-256):
state is (current text, downloads so far, counter). -/
def handleStep (contentType : Str → Str)
    (st : Str × List (Str × Str) × ℕ) (m : ImgMatch) : Str × List (Str × Str) × ℕ :=
  if ("http".data).isPrefixOf m.url then
    let ext := image_file_extension (contentType m.url)
    let fileName := "image_".data ++ (toString st.2.2).data ++ ".".data ++ ext
    let altAttr := match altSearch m.tag with
      | some a => if a = [] then [] else " alt=\x22".data ++ a ++ "\x22".data
      | none => []
    let replaceStr := if m.openedP ∧ m.closedP
      then "<p>".data ++ m.tag ++ "</p>".data else m.tag
    let figure := "<pl-figure file-name=\x22".data ++ fileName ++ "\x22".data
        ++ altAttr ++ "></pl-figure>".data
    (pyReplaceFirst replaceStr figure st.1, st.2.1 ++ [(fileName, m.url)], st.2.2 + 1)
  else st

/-- `handle_images` (canvas.py lines 211-258), with the HTTP layer as
the function `contentType` from url to the response's Content-Type.
Returns the rewritten text and the list of (file name, url) downloads,
in order.  The counter only advances for matches with absolute http
urls (the `continue` at line 221 precedes `next(image_count)`). -/
def handle_images (contentType : Str → Str) (text : Str) : Str × List (Str × Str) :=
  let res := (findImgMatches text).foldl (handleStep contentType) (text, [], 1)
  (res.1, res.2.1)

/-- The local file name the loop writes for the n-th downloaded image. -/
def fileNameFor (n : ℕ) (ext : Str) : Str :=
  "image_".data ++ (toString n).data ++ ".".data ++ ext

/-- The figure element substituted for the n-th image, with alt text. -/
def figureFor (n : ℕ) (ext alt : Str) : Str :=
  "<pl-figure file-name=\x22".data ++ fileNameFor n ext ++ "\x22".data
    ++ (" alt=\x22".data ++ alt ++ "\x22".data) ++ "></pl-figure>".data

theorem matchAt_none_of_ne (c : Char) (rest : Str) (hc : c ≠ '<') :
    matchAt (c :: rest) = none := by
  unfold matchAt
  rw [dropPrefixCh_cons_ne _ _ _ _ hc]
  unfold matchImgTag
  rw [dropPrefixCh_cons_ne _ _ _ _ hc]

theorem findImgMatches_cons_nomatch (c : Char) (rest : Str)
    (h : matchAt (c :: rest) = none) :
    findImgMatches (c :: rest) = findImgMatches rest := by
  simp only [findImgMatches]
  split <;> simp_all

theorem findImgMatches_cons_match (c : Char) (rest : Str) (m : ImgMatch)
    (h : matchAt (c :: rest) = some m) :
    findImgMatches (c :: rest) = m :: findImgMatches m.rem := by
  simp only [findImgMatches]
  split <;> simp_all

theorem findImgMatches_skip : ∀ (pre s : Str), (∀ c ∈ pre, c ≠ '<') →
    findImgMatches (pre ++ s) = findImgMatches s := by
  intro pre
  induction pre with
  | nil => intro s _; simp
  | cons c rest ih =>
    intro s hc
    rw [List.cons_append]
    rw [findImgMatches_cons_nomatch c (rest ++ s)
      (matchAt_none_of_ne _ _ (hc c (List.mem_cons_self c rest)))]
    exact ih s (fun d hd => hc d (List.mem_cons_of_mem c hd))

/-- C5 — Contrary to the claim's last clause, when the same absolute URL
occurs in two img tags, *both* occurrences are rewritten: the match
iterator runs over the original text and each single-count
`str.replace` consumes the first still-remaining occurrence, so the
two tags become sequentially numbered figures `image_1` and `image_2`
(and the URL is downloaded twice). -/
theorem c5_counterexample :
    handle_images ctPng "X<img src=\x22http://u\x22>Y<img src=\x22http://u\x22>Z".data
      = ("X<pl-figure file-name=\x22image_1.png\x22></pl-figure>Y<pl-figure file-name=\x22image_2.png\x22></pl-figure>Z".data,
         [("image_1.png".data, "http://u".data), ("image_2.png".data, "http://u".data)]) := by
  have h1 : matchAt ('<' :: "img src=\x22http://u\x22>Y<img src=\x22http://u\x22>Z".data)
      = some ⟨false, "<img src=\x22http://u\x22>".data, "http://u".data, false,
          "Y<img src=\x22http://u\x22>Z".data⟩ := by decide
  have h2 : matchAt ('<' :: "img src=\x22http://u\x22>Z".data)
      = some ⟨false, "<img src=\x22http://u\x22>".data, "http://u".data, false, "Z".data⟩ := by
    decide
  have hm : findImgMatches "X<img src=\x22http://u\x22>Y<img src=\x22http://u\x22>Z".data
      = [⟨false, "<img src=\x22http://u\x22>".data, "http://u".data, false,
            "Y<img src=\x22http://u\x22>Z".data⟩,
         ⟨false, "<img src=\x22http://u\x22>".data, "http://u".data, false, "Z".data⟩] := by
    have hs1 : ("X<img src=\x22http://u\x22>Y<img src=\x22http://u\x22>Z".data : Str)
        = ['X'] ++ '<' :: "img src=\x22http://u\x22>Y<img src=\x22http://u\x22>Z".data := by
      decide
    rw [hs1, findImgMatches_skip ['X'] _ (by decide),
      findImgMatches_cons_match _ _ _ h1]
    congr 1
    show findImgMatches ("Y<img src=\x22http://u\x22>Z".data) = _
    have hs2 : ("Y<img src=\x22http://u\x22>Z".data : Str)
        = ['Y'] ++ '<' :: "img src=\x22http://u\x22>Z".data := by decide
    rw [hs2, findImgMatches_skip ['Y'] _ (by decide),
      findImgMatches_cons_match _ _ _ h2]
    congr 1
    show findImgMatches ("Z".data) = ([] : List ImgMatch)
    have hs3 : ("Z".data : Str) = ['Z'] ++ ([] : Str) := by decide
    rw [hs3, findImgMatches_skip ['Z'] _ (by decide)]
    simp [findImgMatches]
  rw [handle_images]
  simp only []
  rw [hm]
  rfl

/-! ### Helper lemmas for the image-pattern analysis -/

theorem dropPrefixCh_eq_some : ∀ (pat s t : Str), dropPrefixCh pat s = some t →
    s = pat ++ t := by
  intro pat
  induction pat with
  | nil =>
    intro s t h
    simp [dropPrefixCh] at h
    simp [h]
  | cons p ps ih =>
    intro s t h
    match s with
    | [] => simp [dropPrefixCh] at h
    | c :: cs =>
      simp only [dropPrefixCh] at h
      split at h
      · rename_i hpc
        subst hpc
        rw [List.cons_append, ih cs t h]
      · simp at h

/-- A four-character quote-free pattern followed by `"` cannot match at
the start of `w ++ '"' :: A` when `w` is quote-free and differs from the
pattern. -/
theorem patq_none (p4 : Str) (h4 : p4.length = 4) (hq : '"' ∉ p4)
    (w A : Str) (hw : ∀ c ∈ w, c ≠ '"') (hne : w ≠ p4) :
    dropPrefixCh (p4 ++ ['"']) (w ++ '"' :: A) = none := by
  cases hcase : dropPrefixCh (p4 ++ ['"']) (w ++ '"' :: A) with
  | none => rfl
  | some t =>
    exfalso
    have heq := dropPrefixCh_eq_some _ _ _ hcase
    rcases le_or_lt w.length 3 with hle | hge
    · -- a quote appears among the first 4 characters, but the pattern is quote-free
      have h4' := congrArg (List.take 4) heq
      rw [List.append_assoc] at h4'
      rw [List.take_append_eq_append_take] at h4'
      have hp4 : (p4 ++ (['"'] ++ t)).take 4 = p4 := by
        rw [List.take_append_eq_append_take, List.take_of_length_le (by omega),
          h4, Nat.sub_self, List.take_zero, List.append_nil]
      rw [hp4, List.take_of_length_le (by omega)] at h4'
      have hmem : '"' ∈ w ++ ('"' :: A).take (4 - w.length) := by
        obtain ⟨m, hm⟩ : ∃ m, 4 - w.length = m + 1 := ⟨3 - w.length, by omega⟩
        rw [hm, List.take_succ_cons]
        exact List.mem_append_right _ (List.mem_cons_self _ _)
      rw [h4'] at hmem
      exact hq hmem
    · -- the first 5 characters of the left side lie in `w` (or end exactly
      -- at its boundary), so `w` would have to contain a quote or equal the
      -- pattern
      have h5' := congrArg (List.take 5) heq
      rw [List.append_assoc] at h5'
      rw [List.take_append_eq_append_take] at h5'
      have hp5 : (p4 ++ (['"'] ++ t)).take 5 = p4 ++ ['"'] := by
        rw [← List.append_assoc, List.take_append_eq_append_take,
          List.take_of_length_le (by simp [h4]),
          show 5 - (p4 ++ ['"']).length = 0 by simp [h4], List.take_zero,
          List.append_nil]
      rw [hp5] at h5'
      rcases le_or_lt 5 w.length with hge5 | hlt5
      · rw [show 5 - w.length = 0 by omega, List.take_zero, List.append_nil] at h5'
        have : '"' ∈ w.take 5 := by
          rw [h5']
          exact List.mem_append_right _ (List.mem_cons_self _ _)
        exact hw '"' (List.take_subset _ _ this) rfl
      · have hw4 : w.length = 4 := by omega
        rw [List.take_of_length_le (by omega),
          show 5 - w.length = 1 by omega] at h5'
        have htake1 : ('"' :: A).take 1 = ['"'] := by simp
        rw [htake1] at h5'
        have := List.append_inj_left h5' (by simp [hw4, h4])
        exact hne this

theorem takeWhileNe_append (q : Char) : ∀ (w X : Str), (∀ c ∈ w, c ≠ q) →
    (w ++ q :: X).takeWhile (fun c => decide (c ≠ q)) = w := by
  intro w
  induction w with
  | nil => intro X _; simp
  | cons c rest ih =>
    intro X hc
    rw [List.cons_append, List.takeWhile_cons,
      if_pos (by simp [hc c (List.mem_cons_self c rest)]),
      ih X (fun d hd => hc d (List.mem_cons_of_mem c hd))]

theorem takeWhileNe_all (q : Char) : ∀ (w : Str), (∀ c ∈ w, c ≠ q) →
    w.takeWhile (fun c => decide (c ≠ q)) = w := by
  intro w
  induction w with
  | nil => intro _; simp
  | cons c rest ih =>
    intro hc
    rw [List.takeWhile_cons]
    rw [if_pos (by simp [hc c (List.mem_cons_self c rest)])]
    rw [ih (fun d hd => hc d (List.mem_cons_of_mem c hd))]

theorem dropWhileNe_append (q : Char) : ∀ (w X : Str), (∀ c ∈ w, c ≠ q) →
    (w ++ q :: X).dropWhile (fun c => decide (c ≠ q)) = q :: X := by
  intro w
  induction w with
  | nil => intro X _; simp
  | cons c rest ih =>
    intro X hc
    rw [List.cons_append, List.dropWhile_cons]
    rw [if_pos (by simp [hc c (List.mem_cons_self c rest)])]
    exact ih X (fun d hd => hc d (List.mem_cons_of_mem c hd))

/-- The characters of an img tag after the mandatory `<img`:
`␣src="u" alt="a">`. -/
def tagBody (u a : Str) : Str :=
  " src=\x22".data ++ (u ++ ("\x22 alt=\x22".data ++ (a ++ "\x22>".data)))

/-- A well-formed img tag `<img src="u" alt="a">`. -/
def tagOf (u a : Str) : Str := "<img".data ++ tagBody u a

theorem trySplit_none (t : Str) (k : ℕ)
    (h : dropPrefixCh "src=\x22".data (t.drop k) = none) : trySplit t k = none := by
  unfold trySplit
  simp [h]

theorem trySplit_at (t : Str) (k : ℕ) (u C rest : Str)
    (hu : u ≠ []) (huq : ∀ c ∈ u, c ≠ '"') (hC : ∀ c ∈ C, c ≠ '>')
    (ht : t.drop k = "src=\x22".data ++ (u ++ '"' :: (C ++ '>' :: rest))) :
    trySplit t k = some (u, rest) := by
  unfold trySplit
  rw [ht, dropPrefixCh_self]
  simp only []
  rw [takeWhileNe_append '"' u _ huq]
  rw [if_neg hu]
  rw [List.drop_left]
  simp [afterTagClose_skip C rest hC]

/-- Backtracking exhaustion: at every offset strictly between the true
`src="` position (offset 1) and the greedy maximum, the attempt fails. -/
theorem tagBody_drop_none (u a rest : Str) (k : ℕ)
    (huq : ∀ c ∈ u, c ≠ '"') (husrc : ¬ ("src=".data <:+ u))
    (haq : ∀ c ∈ a, c ≠ '"') (hasrc : ¬ ("src=".data <:+ a))
    (hk2 : 2 ≤ k) (hkm : k ≤ 14 + u.length + a.length) :
    dropPrefixCh "src=\x22".data ((tagBody u a ++ rest).drop k) = none := by
  have hq5 : ("src=\x22".data : Str) = "src=".data ++ ['"'] := by decide
  rcases le_or_lt k 5 with h5 | h5
  · -- inside the literal `␣src="` block
    have hsh : tagBody u a ++ rest
        = ' ' :: 's' :: 'r' :: 'c' :: '=' :: '"'
            :: (u ++ ('"' :: (" alt=\x22".data ++ (a ++ ('"' :: '>' :: rest))))) := by
      simp [tagBody]
    interval_cases k
    · rw [hsh]
      exact dropPrefixCh_cons_ne _ _ _ _ (by decide)
    · rw [hsh]
      exact dropPrefixCh_cons_ne _ _ _ _ (by decide)
    · rw [hsh]
      exact dropPrefixCh_cons_ne _ _ _ _ (by decide)
    · rw [hsh]
      exact dropPrefixCh_cons_ne _ _ _ _ (by decide)
  rcases le_or_lt k (5 + u.length) with hB | hB
  · -- inside the url capture
    have hsh : tagBody u a ++ rest
        = " src=\x22".data ++ (u ++ ('"'
            :: (" alt=\x22".data ++ (a ++ ('"' :: '>' :: rest))))) := by
      simp [tagBody]
    have hk : k = (" src=\x22".data : Str).length + (k - 6) := by
      simp
      omega
    rw [hsh, hk, List.drop_append, List.drop_append_of_le_length (by omega)]
    rw [hq5]
    exact patq_none "src=".data (by decide) (by decide) (u.drop (k - 6)) _
      (fun c hc => huq c (List.mem_of_mem_drop hc))
      (fun heq => husrc (heq ▸ List.drop_suffix (k - 6) u))
  rcases le_or_lt k (12 + u.length) with hC | hC
  · -- inside the literal `"␣alt="` block
    have hsh : tagBody u a ++ rest
        = (" src=\x22".data ++ u) ++ ("\x22 alt=\x22".data ++ (a ++ ('"' :: '>' :: rest))) := by
      simp [tagBody]
    have hk : k = (" src=\x22".data ++ u : Str).length + (k - (6 + u.length)) := by
      simp
      omega
    rw [hsh, hk, List.drop_append]
    have hj : k - (6 + u.length) ≤ 6 := by omega
    set j := k - (6 + u.length) with hjdef
    have hsplit : ("\x22 alt=\x22".data ++ (a ++ ('"' :: '>' :: rest))).drop j
        = "\x22 alt=\x22".data.drop j ++ (a ++ ('"' :: '>' :: rest)) :=
      List.drop_append_of_le_length (by simp; omega)
    rw [hsplit]
    interval_cases j <;>
      exact dropPrefixCh_cons_ne _ _ _ _ (by decide)
  rcases le_or_lt k (13 + u.length + a.length) with hD | hD
  · -- inside the alt capture (or at its closing quote)
    have hsh : tagBody u a ++ rest
        = (" src=\x22".data ++ u ++ "\x22 alt=\x22".data) ++ (a ++ ('"' :: '>' :: rest)) := by
      simp [tagBody]
    have hk : k = (" src=\x22".data ++ u ++ "\x22 alt=\x22".data : Str).length
        + (k - (13 + u.length)) := by
      simp
      omega
    rw [hsh, hk, List.drop_append, List.drop_append_of_le_length (by omega)]
    rw [hq5]
    exact patq_none "src=".data (by decide) (by decide) (a.drop (k - (13 + u.length))) _
      (fun c hc => haq c (List.mem_of_mem_drop hc))
      (fun heq => hasrc (heq ▸ List.drop_suffix _ a))
  · -- at the closing `>`
    have hke : k = 14 + u.length + a.length := by omega
    have hsh : tagBody u a ++ rest
        = (" src=\x22".data ++ u ++ "\x22 alt=\x22".data ++ a ++ ['"']) ++ ('>' :: rest) := by
      simp [tagBody]
    have hlen : (" src=\x22".data ++ u ++ "\x22 alt=\x22".data ++ a ++ ['"'] : Str).length
        = 14 + u.length + a.length := by
      simp
      omega
    rw [hsh, hke, ← hlen, List.drop_left]
    exact dropPrefixCh_cons_ne _ _ _ _ (by decide)

/-- Greedy descent: the first success from the top wins. -/
theorem srcSearch_find (t : Str) (j : ℕ) (r : Str × Str)
    (hj : trySplit t j = some r) :
    ∀ K, j ≤ K → (∀ k, j < k → k ≤ K → trySplit t k = none) → srcSearch t K = some r := by
  intro K
  induction K with
  | zero =>
    intro hle _
    have hj0 : j = 0 := by omega
    subst hj0
    simpa [srcSearch] using hj
  | succ K ih =>
    intro hle hnone
    by_cases hjk : j = K + 1
    · subst hjk
      simp [srcSearch, hj]
    · have hn : trySplit t (K + 1) = none := hnone (K + 1) (by omega) (le_refl _)
      have hrec := ih (by omega) (fun k hk1 hk2 => hnone k hk1 (by omega))
      simp [srcSearch, hn, hrec]

theorem matchImgTag_tagOf (u a rest : Str)
    (hu : u ≠ []) (huq : ∀ c ∈ u, c ≠ '"') (hug : ∀ c ∈ u, c ≠ '>')
    (husrc : ¬ ("src=".data <:+ u))
    (haq : ∀ c ∈ a, c ≠ '"') (hag : ∀ c ∈ a, c ≠ '>')
    (hasrc : ¬ ("src=".data <:+ a)) :
    matchImgTag (tagOf u a ++ rest) = some (tagOf u a, u, rest) := by
  have h0 : tagOf u a ++ rest = "<img".data ++ (tagBody u a ++ rest) := by
    simp [tagOf]
  have hfree : ∀ c ∈ (" src=\x22".data ++ u ++ "\x22 alt=\x22".data ++ a ++ ['"'] : Str),
      c ≠ '>' := by
    intro c hc
    simp only [List.append_assoc, List.mem_append] at hc
    rcases hc with hc | hc | hc | hc | hc
    · exact (by decide : ∀ c ∈ (" src=\x22".data : Str), c ≠ '>') c hc
    · exact hug c hc
    · exact (by decide : ∀ c ∈ ("\x22 alt=\x22".data : Str), c ≠ '>') c hc
    · exact hag c hc
    · exact (by decide : ∀ c ∈ (['"'] : Str), c ≠ '>') c hc
  have hw : tagBody u a ++ rest
      = (" src=\x22".data ++ u ++ "\x22 alt=\x22".data ++ a ++ ['"']) ++ '>' :: rest := by
    simp [tagBody]
  have hkmax : ((tagBody u a ++ rest).takeWhile (fun c => decide (c ≠ '>'))).length
      = 14 + u.length + a.length := by
    rw [hw, takeWhileNe_append '>' _ _ hfree]
    simp
    omega
  have htry1 : trySplit (tagBody u a ++ rest) 1 = some (u, rest) := by
    apply trySplit_at (tagBody u a ++ rest) 1 u (" alt=\x22".data ++ (a ++ ['"'])) rest hu huq
    · intro c hc
      simp only [List.mem_append] at hc
      rcases hc with hc | hc | hc
      · exact (by decide : ∀ c ∈ (" alt=\x22".data : Str), c ≠ '>') c hc
      · exact hag c hc
      · exact (by decide : ∀ c ∈ (['"'] : Str), c ≠ '>') c hc
    · have hsh : tagBody u a ++ rest
          = ' ' :: ("src=\x22".data ++ (u ++ '"' :: ((" alt=\x22".data ++ (a ++ ['"'])) ++ '>' :: rest))) := by
        simp [tagBody]
      rw [hsh]
      rfl
  have hnone1 : ∀ k, 1 < k → k ≤ 14 + u.length + a.length →
      trySplit (tagBody u a ++ rest) k = none := fun k h1 h2 =>
    trySplit_none _ _ (tagBody_drop_none u a rest k huq husrc haq hasrc (by omega) h2)
  have hfound := srcSearch_find (tagBody u a ++ rest) 1 (u, rest) htry1
    (14 + u.length + a.length) (by omega) hnone1
  have htake : (tagBody u a ++ rest).take ((tagBody u a ++ rest).length - rest.length)
      = tagBody u a := by
    have hlen : (tagBody u a ++ rest).length - rest.length = (tagBody u a).length := by
      simp
    rw [hlen, List.take_left]
  unfold matchImgTag
  rw [h0, dropPrefixCh_self]
  simp only [hkmax, hfound, htake]
  simp [tagOf]

/-- `<p><img …></p>`: the optional groups 1 and 4 both match, so the
whole paragraph is part of the match. -/
theorem matchAt_p_exact (u a rest2 : Str)
    (hu : u ≠ []) (huq : ∀ c ∈ u, c ≠ '"') (hug : ∀ c ∈ u, c ≠ '>')
    (husrc : ¬ ("src=".data <:+ u))
    (haq : ∀ c ∈ a, c ≠ '"') (hag : ∀ c ∈ a, c ≠ '>')
    (hasrc : ¬ ("src=".data <:+ a)) :
    matchAt ("<p>".data ++ (tagOf u a ++ ("</p>".data ++ rest2)))
      = some ⟨true, tagOf u a, u, true, rest2⟩ := by
  unfold matchAt
  rw [dropPrefixCh_self]
  simp only [matchImgTag_tagOf u a _ hu huq hug husrc haq hag hasrc, dropPrefixCh_self]

/-- A `<p>` followed by anything that does not open a tag: the whole
pattern fails at this position (`<img` cannot match `<p…` either). -/
theorem matchAt_p_skip (c : Char) (w : Str) (hc : c ≠ '<') :
    matchAt ("<p>".data ++ (c :: w)) = none := by
  have himg0 : dropPrefixCh "<img".data (c :: w) = none := by
    rw [show ("<img".data : Str) = '<' :: "img".data from rfl]
    exact dropPrefixCh_cons_ne _ _ _ _ hc
  have himg : matchImgTag (c :: w) = none := by
    unfold matchImgTag
    simp only [himg0]
  unfold matchAt
  simp only [dropPrefixCh_self, himg]

/-- A bare img tag followed by `</p>` (with other content between the
`<p>` and the tag): group 1 stays empty but group 4 still matches. -/
theorem matchAt_tag_closed (u a post : Str)
    (hu : u ≠ []) (huq : ∀ c ∈ u, c ≠ '"') (hug : ∀ c ∈ u, c ≠ '>')
    (husrc : ¬ ("src=".data <:+ u))
    (haq : ∀ c ∈ a, c ≠ '"') (hag : ∀ c ∈ a, c ≠ '>')
    (hasrc : ¬ ("src=".data <:+ a)) :
    matchAt (tagOf u a ++ ("</p>".data ++ post))
      = some ⟨false, tagOf u a, u, true, post⟩ := by
  have hpn : dropPrefixCh "<p>".data (tagOf u a ++ ("</p>".data ++ post)) = none := by
    have hsh : tagOf u a ++ ("</p>".data ++ post)
        = '<' :: 'i' :: ("mg".data ++ (tagBody u a ++ ("</p>".data ++ post))) := by
      simp [tagOf]
    rw [hsh]
    simp [dropPrefixCh]
  unfold matchAt
  rw [hpn]
  simp only [matchImgTag_tagOf u a _ hu huq hug husrc haq hag hasrc, dropPrefixCh_self]

theorem findImgMatches_match (s : Str) (m : ImgMatch)
    (h : matchAt s = some m) (hne : s ≠ []) :
    findImgMatches s = m :: findImgMatches m.rem := by
  match s with
  | [] => exact absurd rfl hne
  | c :: rest => exact findImgMatches_cons_match c rest m h

/-- The match iterator on a text with an exactly-wrapped image and a
paragraph holding extra content plus an image: exactly two matches, the
first consuming its paragraph, the second only the tag and the stray
`</p>`. -/
theorem findImgMatches_family (pre mid post extra u1 a1 u2 a2 : Str)
    (hpre : ∀ c ∈ pre, c ≠ '<') (hmid : ∀ c ∈ mid, c ≠ '<')
    (hpost : ∀ c ∈ post, c ≠ '<') (hextra : ∀ c ∈ extra, c ≠ '<')
    (hexne : extra ≠ [])
    (hu1 : u1 ≠ []) (hu1q : ∀ c ∈ u1, c ≠ '"') (hu1g : ∀ c ∈ u1, c ≠ '>')
    (hu1src : ¬ ("src=".data <:+ u1))
    (ha1q : ∀ c ∈ a1, c ≠ '"') (ha1g : ∀ c ∈ a1, c ≠ '>')
    (ha1src : ¬ ("src=".data <:+ a1))
    (hu2 : u2 ≠ []) (hu2q : ∀ c ∈ u2, c ≠ '"') (hu2g : ∀ c ∈ u2, c ≠ '>')
    (hu2src : ¬ ("src=".data <:+ u2))
    (ha2q : ∀ c ∈ a2, c ≠ '"') (ha2g : ∀ c ∈ a2, c ≠ '>')
    (ha2src : ¬ ("src=".data <:+ a2)) :
    findImgMatches (pre ++ ("<p>".data ++ (tagOf u1 a1 ++ ("</p>".data
        ++ (mid ++ ("<p>".data ++ (extra ++ (tagOf u2 a2 ++ ("</p>".data ++ post)))))))))
      = [⟨true, tagOf u1 a1, u1, true,
            mid ++ ("<p>".data ++ (extra ++ (tagOf u2 a2 ++ ("</p>".data ++ post))))⟩,
         ⟨false, tagOf u2 a2, u2, true, post⟩] := by
  rw [findImgMatches_skip pre _ hpre]
  rw [findImgMatches_match _ _
    (matchAt_p_exact u1 a1 _ hu1 hu1q hu1g hu1src ha1q ha1g ha1src)
    (List.cons_ne_nil _ _)]
  congr 1
  show findImgMatches (mid ++ ("<p>".data ++ (extra ++ (tagOf u2 a2
      ++ ("</p>".data ++ post))))) = _
  rw [findImgMatches_skip mid _ hmid]
  obtain ⟨e, extra', hex⟩ : ∃ e extra', extra = e :: extra' := by
    cases extra with
    | nil => exact absurd rfl hexne
    | cons e ex => exact ⟨e, ex, rfl⟩
  subst hex
  have he : e ≠ '<' := hextra e (List.mem_cons_self e extra')
  have hstep : findImgMatches ("<p>".data ++ ((e :: extra')
        ++ (tagOf u2 a2 ++ ("</p>".data ++ post))))
      = findImgMatches ("p>".data ++ ((e :: extra')
        ++ (tagOf u2 a2 ++ ("</p>".data ++ post)))) := by
    rw [show ("<p>".data ++ ((e :: extra') ++ (tagOf u2 a2 ++ ("</p>".data ++ post))) : Str)
        = '<' :: ("p>".data ++ ((e :: extra') ++ (tagOf u2 a2 ++ ("</p>".data ++ post))))
      from rfl]
    exact findImgMatches_cons_nomatch _ _
      (matchAt_p_skip e (extra' ++ (tagOf u2 a2 ++ ("</p>".data ++ post))) he)
  rw [hstep]
  have hskip2 : ∀ c ∈ ("p>".data ++ (e :: extra') : Str), c ≠ '<' := by
    intro c hc
    simp only [List.mem_append] at hc
    rcases hc with hc | hc
    · exact (by decide : ∀ c ∈ ("p>".data : Str), c ≠ '<') c hc
    · exact hextra c hc
  rw [show ("p>".data ++ ((e :: extra') ++ (tagOf u2 a2 ++ ("</p>".data ++ post))) : Str)
      = ("p>".data ++ (e :: extra')) ++ (tagOf u2 a2 ++ ("</p>".data ++ post))
    from by simp]
  rw [findImgMatches_skip _ _ hskip2]
  rw [findImgMatches_match _ _
    (matchAt_tag_closed u2 a2 post hu2 hu2q hu2g hu2src ha2q ha2g ha2src)
    (List.cons_ne_nil _ _)]
  congr 1
  show findImgMatches post = ([] : List ImgMatch)
  rw [show (post : Str) = post ++ ([] : Str) from (List.append_nil post).symm]
  rw [findImgMatches_skip post _ hpost]
  simp [findImgMatches]

theorem altSearch_skip_head (c : Char) (rest : Str)
    (h : dropPrefixCh "alt=\x22".data (c :: rest) = none) :
    altSearch (c :: rest) = altSearch rest := by
  rw [altSearch.eq_def]
  simp only [h]

theorem altSearch_skip_noA : ∀ (w s : Str), (∀ c ∈ w, c ≠ 'a') →
    altSearch (w ++ s) = altSearch s := by
  intro w
  induction w with
  | nil => intro s _; simp
  | cons c rest ih =>
    intro s hc
    rw [List.cons_append]
    rw [altSearch_skip_head c (rest ++ s)
      (by
        rw [show ("alt=\x22".data : Str) = 'a' :: "lt=\x22".data from rfl]
        exact dropPrefixCh_cons_ne _ _ _ _ (hc c (List.mem_cons_self c rest)))]
    exact ih s (fun d hd => hc d (List.mem_cons_of_mem c hd))

theorem altSearch_skip_u : ∀ (u C : Str), (∀ c ∈ u, c ≠ '"') →
    (¬ ("alt=".data <:+ u)) →
    altSearch (u ++ '"' :: C) = altSearch ('"' :: C) := by
  intro u
  induction u with
  | nil => intro C _ _; simp
  | cons c u' ih =>
    intro C hq hsuf
    rw [List.cons_append]
    rw [altSearch_skip_head c (u' ++ '"' :: C)
      (by
        rw [show ("alt=\x22".data : Str) = "alt=".data ++ ['"'] from rfl]
        exact patq_none "alt=".data (by decide) (by decide) (c :: u') C hq
          (fun heq => hsuf (heq ▸ List.suffix_refl (c :: u'))))]
    exact ih C (fun d hd => hq d (List.mem_cons_of_mem c hd))
      (fun hs => hsuf (hs.trans (List.suffix_cons c u')))

/-- `re.search(r'alt="([^"]*)"', tag)` on a well-formed img tag captures
exactly the alt text. -/
theorem altSearch_tagOf (u a : Str)
    (huq : ∀ c ∈ u, c ≠ '"') (hualt : ¬ ("alt=".data <:+ u))
    (haq : ∀ c ∈ a, c ≠ '"') :
    altSearch (tagOf u a) = some a := by
  have hsh : tagOf u a
      = "<img src=\x22".data ++ (u ++ '"' :: (' ' :: ("alt=\x22".data ++ (a ++ "\x22>".data)))) := by
    simp [tagOf, tagBody]
  rw [hsh]
  rw [altSearch_skip_noA "<img src=\x22".data _ (by decide)]
  rw [altSearch_skip_u u _ huq hualt]
  rw [altSearch_skip_head '"' _
    (by
      rw [show ("alt=\x22".data : Str) = 'a' :: "lt=\x22".data from rfl]
      exact dropPrefixCh_cons_ne _ _ _ _ (by decide))]
  rw [altSearch_skip_head ' ' _
    (by
      rw [show ("alt=\x22".data : Str) = 'a' :: "lt=\x22".data from rfl]
      exact dropPrefixCh_cons_ne _ _ _ _ (by decide))]
  have hself : dropPrefixCh "alt=\x22".data ("alt=\x22".data ++ (a ++ "\x22>".data))
      = some (a ++ "\x22>".data) := dropPrefixCh_self _ _
  obtain ⟨c0, w0, hw0⟩ : ∃ c0 w0, ("alt=\x22".data ++ (a ++ "\x22>".data) : Str) = c0 :: w0 :=
    ⟨'a', "lt=\x22".data ++ (a ++ "\x22>".data), rfl⟩
  rw [hw0]
  unfold altSearch
  rw [← hw0, hself]
  simp only []
  rw [show (a ++ "\x22>".data : Str) = a ++ '"' :: ">".data from by simp]
  rw [takeWhileNe_append '"' a _ haq]
  rw [List.drop_left]
  rfl

theorem pyReplaceFirst_cons_nomatch (pat repl : Str) (c : Char) (rest : Str)
    (h : dropPrefixCh pat (c :: rest) = none) :
    pyReplaceFirst pat repl (c :: rest) = c :: pyReplaceFirst pat repl rest := by
  simp only [pyReplaceFirst, h]

theorem pyReplaceFirst_skip (pat repl p' : Str) (hpat : pat = '<' :: p') :
    ∀ (w s : Str), (∀ c ∈ w, c ≠ '<') →
    pyReplaceFirst pat repl (w ++ s) = w ++ pyReplaceFirst pat repl s := by
  intro w
  induction w with
  | nil => intro s _; simp
  | cons c rest ih =>
    intro s hc
    rw [List.cons_append]
    rw [pyReplaceFirst_cons_nomatch pat repl c (rest ++ s)
      (by
        rw [hpat]
        exact dropPrefixCh_cons_ne _ _ _ _ (hc c (List.mem_cons_self c rest)))]
    rw [ih s (fun d hd => hc d (List.mem_cons_of_mem c hd))]
    rfl

theorem pyReplaceFirst_at (pat repl tail p' : Str) (hpat : pat = '<' :: p') :
    pyReplaceFirst pat repl (pat ++ tail) = repl ++ tail := by
  subst hpat
  rw [List.cons_append]
  simp only [pyReplaceFirst]
  rw [show dropPrefixCh ('<' :: p') ('<' :: (p' ++ tail)) = some tail from
    dropPrefixCh_self ('<' :: p') tail]

/-- An img-tag pattern never matches at a `<` followed by anything but
`i`. -/
theorem dropPrefixCh_tagOf_ne (u a : Str) (c : Char) (w : Str) (hc : c ≠ 'i') :
    dropPrefixCh (tagOf u a) ('<' :: c :: w) = none := by
  have hsh : tagOf u a = '<' :: 'i' :: ("mg".data ++ tagBody u a) := by
    simp [tagOf]
  rw [hsh]
  simp only [dropPrefixCh]
  rw [if_pos trivial]
  exact if_neg (fun h => hc h.symm)

/-- The default arm of `image_file_extension`: the subtype after the
slash. -/
theorem image_file_extension_generic (sub : Str) (hs : ∀ c ∈ sub, c ≠ '/')
    (h1 : sub ≠ "x-icon".data) (h2 : sub ≠ "svg+xml".data) :
    image_file_extension ("image/".data ++ sub) = sub := by
  unfold image_file_extension
  rw [if_neg (fun h => h1 (by
    rw [show ("image/x-icon".data : Str) = "image/".data ++ "x-icon".data from rfl] at h
    exact List.append_cancel_left h))]
  rw [if_neg (fun h => h2 (by
    rw [show ("image/svg+xml".data : Str) = "image/".data ++ "svg+xml".data from rfl] at h
    exact List.append_cancel_left h))]
  rw [show ("image/".data ++ sub : Str) = "image".data ++ '/' :: sub from by simp]
  rw [dropWhileNe_append '/' "image".data sub (by decide)]
  rw [List.drop_one, List.tail_cons]
  exact takeWhileNe_all '/' sub hs

/-- One loop iteration on an absolute-url match with alt text. -/
theorem handleStep_eval (ct : Str → Str) (tx : Str) (dls : List (Str × Str)) (n : ℕ)
    (opened closed : Bool) (tag u a rem : Str)
    (hhttp : "http".data <+: u)
    (halt : altSearch tag = some a) (hane : a ≠ []) :
    handleStep ct (tx, dls, n) ⟨opened, tag, u, closed, rem⟩
      = (pyReplaceFirst (if opened ∧ closed then "<p>".data ++ tag ++ "</p>".data else tag)
          (figureFor n (image_file_extension (ct u)) a) tx,
         dls ++ [(fileNameFor n (image_file_extension (ct u)), u)], n + 1) := by
  unfold handleStep
  rw [if_pos (List.isPrefixOf_iff_prefix.mpr hhttp)]
  simp only [halt, if_neg hane, figureFor, fileNameFor]

theorem replace_first_image (pre R1 u1 a1 fig : Str)
    (hpre : ∀ c ∈ pre, c ≠ '<') :
    pyReplaceFirst ("<p>".data ++ tagOf u1 a1 ++ "</p>".data) fig
        (pre ++ ("<p>".data ++ (tagOf u1 a1 ++ ("</p>".data ++ R1))))
      = pre ++ (fig ++ R1) := by
  have hpat : ("<p>".data ++ tagOf u1 a1 ++ "</p>".data : Str)
      = '<' :: ("p>".data ++ tagOf u1 a1 ++ "</p>".data) := by
    simp
  have hsh : pre ++ ("<p>".data ++ (tagOf u1 a1 ++ ("</p>".data ++ R1)))
      = pre ++ (("<p>".data ++ tagOf u1 a1 ++ "</p>".data) ++ R1) := by
    simp
  rw [hsh]
  rw [pyReplaceFirst_skip _ fig _ hpat pre _ hpre]
  rw [pyReplaceFirst_at _ fig R1 _ hpat]

theorem replace_second_image (pre mid extra fn1 a1 u2 a2 post fig2 : Str)
    (hpre : ∀ c ∈ pre, c ≠ '<') (hmid : ∀ c ∈ mid, c ≠ '<')
    (hextra : ∀ c ∈ extra, c ≠ '<')
    (hfn1 : ∀ c ∈ fn1, c ≠ '<') (ha1lt : ∀ c ∈ a1, c ≠ '<') :
    pyReplaceFirst (tagOf u2 a2) fig2
        (pre ++ (("<pl-figure file-name=\x22".data ++ fn1 ++ "\x22".data
            ++ (" alt=\x22".data ++ a1 ++ "\x22".data) ++ "></pl-figure>".data)
          ++ (mid ++ ("<p>".data ++ (extra ++ (tagOf u2 a2 ++ ("</p>".data ++ post)))))))
      = pre ++ (("<pl-figure file-name=\x22".data ++ fn1 ++ "\x22".data
            ++ (" alt=\x22".data ++ a1 ++ "\x22".data) ++ "></pl-figure>".data)
          ++ (mid ++ ("<p>".data ++ (extra ++ (fig2 ++ ("</p>".data ++ post)))))) := by
  have hpat2 : (tagOf u2 a2 : Str) = '<' :: ("img".data ++ tagBody u2 a2) := by
    simp [tagOf]
  have hB1free : ∀ c ∈ ("pl-figure file-name=\x22".data
      ++ (fn1 ++ ("\x22 alt=\x22".data ++ (a1 ++ "\x22>".data))) : Str), c ≠ '<' := by
    intro c hc
    simp only [List.mem_append] at hc
    rcases hc with hc | hc | hc | hc | hc
    · exact (by decide : ∀ c ∈ ("pl-figure file-name=\x22".data : Str), c ≠ '<') c hc
    · exact hfn1 c hc
    · exact (by decide : ∀ c ∈ ("\x22 alt=\x22".data : Str), c ≠ '<') c hc
    · exact ha1lt c hc
    · exact (by decide : ∀ c ∈ ("\x22>".data : Str), c ≠ '<') c hc
  have hp2e : ∀ c ∈ ("p>".data ++ extra : Str), c ≠ '<' := by
    intro c hc
    simp only [List.mem_append] at hc
    rcases hc with hc | hc
    · exact (by decide : ∀ c ∈ ("p>".data : Str), c ≠ '<') c hc
    · exact hextra c hc
  have hsh : pre ++ (("<pl-figure file-name=\x22".data ++ fn1 ++ "\x22".data
          ++ (" alt=\x22".data ++ a1 ++ "\x22".data) ++ "></pl-figure>".data)
        ++ (mid ++ ("<p>".data ++ (extra ++ (tagOf u2 a2 ++ ("</p>".data ++ post))))))
      = pre ++ ('<' :: (("pl-figure file-name=\x22".data
          ++ (fn1 ++ ("\x22 alt=\x22".data ++ (a1 ++ "\x22>".data))))
        ++ ('<' :: ("/pl-figure>".data
        ++ (mid ++ ('<' :: ("p>".data
        ++ (extra ++ (tagOf u2 a2 ++ ("</p>".data ++ post)))))))))) := by
    simp
  rw [hsh]
  rw [pyReplaceFirst_skip _ fig2 _ hpat2 pre _ hpre]
  rw [pyReplaceFirst_cons_nomatch (tagOf u2 a2) fig2 '<'
    (("pl-figure file-name=\x22".data ++ (fn1 ++ ("\x22 alt=\x22".data ++ (a1 ++ "\x22>".data))))
      ++ ('<' :: ("/pl-figure>".data ++ (mid ++ ('<' :: ("p>".data
      ++ (extra ++ (tagOf u2 a2 ++ ("</p>".data ++ post)))))))))
    (dropPrefixCh_tagOf_ne u2 a2 'p' _ (by decide))]
  rw [pyReplaceFirst_skip _ fig2 _ hpat2 _ _ hB1free]
  rw [pyReplaceFirst_cons_nomatch (tagOf u2 a2) fig2 '<'
    ("/pl-figure>".data ++ (mid ++ ('<' :: ("p>".data
      ++ (extra ++ (tagOf u2 a2 ++ ("</p>".data ++ post)))))))
    (dropPrefixCh_tagOf_ne u2 a2 '/' _ (by decide))]
  rw [pyReplaceFirst_skip _ fig2 _ hpat2 "/pl-figure>".data _ (by decide)]
  rw [pyReplaceFirst_skip _ fig2 _ hpat2 mid _ hmid]
  rw [pyReplaceFirst_cons_nomatch (tagOf u2 a2) fig2 '<'
    ("p>".data ++ (extra ++ (tagOf u2 a2 ++ ("</p>".data ++ post))))
    (dropPrefixCh_tagOf_ne u2 a2 'p' _ (by decide))]
  rw [show ("p>".data ++ (extra ++ (tagOf u2 a2 ++ ("</p>".data ++ post))) : Str)
      = ("p>".data ++ extra) ++ (tagOf u2 a2 ++ ("</p>".data ++ post)) from by simp]
  rw [pyReplaceFirst_skip _ fig2 _ hpat2 _ _ hp2e]
  rw [pyReplaceFirst_at _ fig2 ("</p>".data ++ post) _ hpat2]
  simp

/-- C5 (amended) — Image extraction on HTML with two absolute-url img
tags: both are replaced by figure elements with sequentially numbered
local file names `image_1.*`, `image_2.*` whose extensions come from
each response's content type (`image/x-icon ↦ ico`, `image/svg+xml ↦
svg`, otherwise the subtype after the slash), each figure preserves the
original alt text, the paragraph that exactly encloses the first image
is removed with it while the paragraph holding extra content around the
second image is preserved, and both downloads are recorded in order.
The replacements consume occurrences left to right (each single-count
replace hits the first still-present occurrence), so a repeated URL
does not stop the second occurrence from being rewritten. -/
theorem c5_image_extraction (ct : Str → Str) (pre mid post extra u1 a1 u2 a2 : Str)
    (hpre : ∀ c ∈ pre, c ≠ '<') (hmid : ∀ c ∈ mid, c ≠ '<')
    (hpost : ∀ c ∈ post, c ≠ '<') (hextra : ∀ c ∈ extra, c ≠ '<') (hexne : extra ≠ [])
    (hu1 : u1 ≠ []) (hu1q : ∀ c ∈ u1, c ≠ '"') (hu1g : ∀ c ∈ u1, c ≠ '>')
    (hu1src : ¬ ("src=".data <:+ u1)) (hu1alt : ¬ ("alt=".data <:+ u1))
    (hu1http : "http".data <+: u1)
    (ha1 : a1 ≠ []) (ha1q : ∀ c ∈ a1, c ≠ '"') (ha1g : ∀ c ∈ a1, c ≠ '>')
    (ha1lt : ∀ c ∈ a1, c ≠ '<') (ha1src : ¬ ("src=".data <:+ a1))
    (hu2 : u2 ≠ []) (hu2q : ∀ c ∈ u2, c ≠ '"') (hu2g : ∀ c ∈ u2, c ≠ '>')
    (hu2src : ¬ ("src=".data <:+ u2)) (hu2alt : ¬ ("alt=".data <:+ u2))
    (hu2http : "http".data <+: u2)
    (ha2 : a2 ≠ []) (ha2q : ∀ c ∈ a2, c ≠ '"') (ha2g : ∀ c ∈ a2, c ≠ '>')
    (ha2src : ¬ ("src=".data <:+ a2))
    (hext1 : ∀ c ∈ image_file_extension (ct u1), c ≠ '<') :
    handle_images ct (pre ++ ("<p>".data ++ (tagOf u1 a1 ++ ("</p>".data
        ++ (mid ++ ("<p>".data ++ (extra ++ (tagOf u2 a2 ++ ("</p>".data ++ post)))))))))
      = (pre ++ (figureFor 1 (image_file_extension (ct u1)) a1
          ++ (mid ++ ("<p>".data ++ (extra ++ (figureFor 2 (image_file_extension (ct u2)) a2
          ++ ("</p>".data ++ post)))))),
         [(fileNameFor 1 (image_file_extension (ct u1)), u1),
          (fileNameFor 2 (image_file_extension (ct u2)), u2)])
    ∧ image_file_extension "image/x-icon".data = "ico".data
    ∧ image_file_extension "image/svg+xml".data = "svg".data
    ∧ (∀ sub : Str, (∀ c ∈ sub, c ≠ '/') → sub ≠ "x-icon".data → sub ≠ "svg+xml".data →
        image_file_extension ("image/".data ++ sub) = sub) := by
  refine ⟨?_, by decide, by decide,
    fun sub hs h1 h2 => image_file_extension_generic sub hs h1 h2⟩
  have halt1 : altSearch (tagOf u1 a1) = some a1 := altSearch_tagOf u1 a1 hu1q hu1alt ha1q
  have halt2 : altSearch (tagOf u2 a2) = some a2 := altSearch_tagOf u2 a2 hu2q hu2alt ha2q
  have hfn1 : ∀ c ∈ fileNameFor 1 (image_file_extension (ct u1)), c ≠ '<' := by
    intro c hc
    simp only [fileNameFor, List.append_assoc, List.mem_append] at hc
    rcases hc with hc | hc | hc | hc
    · exact (by decide : ∀ c ∈ ("image_".data : Str), c ≠ '<') c hc
    · rw [show ((toString (1 : ℕ)).data : Str) = ['1'] from by decide] at hc
      exact (by decide : ∀ c ∈ (['1'] : Str), c ≠ '<') c hc
    · exact (by decide : ∀ c ∈ (".".data : Str), c ≠ '<') c hc
    · exact hext1 c hc
  have hm := findImgMatches_family pre mid post extra u1 a1 u2 a2 hpre hmid hpost hextra hexne
    hu1 hu1q hu1g hu1src ha1q ha1g ha1src hu2 hu2q hu2g hu2src ha2q ha2g ha2src
  unfold handle_images
  rw [hm]
  rw [List.foldl_cons]
  rw [handleStep_eval ct _ [] 1 true true (tagOf u1 a1) u1 a1 _ hu1http halt1 ha1]
  rw [if_pos ⟨rfl, rfl⟩]
  rw [replace_first_image pre _ u1 a1 _ hpre]
  rw [List.foldl_cons]
  rw [show (1 + 1 : ℕ) = 2 from rfl]
  rw [handleStep_eval ct _ _ 2 false true (tagOf u2 a2) u2 a2 post hu2http halt2 ha2]
  rw [if_neg (by simp)]
  rw [show figureFor 1 (image_file_extension (ct u1)) a1
      = "<pl-figure file-name=\x22".data ++ fileNameFor 1 (image_file_extension (ct u1))
        ++ "\x22".data ++ (" alt=\x22".data ++ a1 ++ "\x22".data) ++ "></pl-figure>".data
    from rfl]
  rw [replace_second_image pre mid extra (fileNameFor 1 (image_file_extension (ct u1)))
    a1 u2 a2 post _ hpre hmid hextra hfn1 ha1lt]
  rw [List.foldl_nil]
  simp [figureFor]

/-- The image-extraction theorem instantiated at a concrete document
with two http images: the recorded downloads are `image_1.png` and
`image_2.png`. -/
theorem c5_image_extraction_witness :
    (("E".data : Str) ≠ []) ∧
    ((handle_images ctPng ("A".data ++ ("<p>".data
        ++ (tagOf "http://u1".data "x".data ++ ("</p>".data
        ++ ("B".data ++ ("<p>".data ++ ("E".data
        ++ (tagOf "http://u2".data "y".data ++ ("</p>".data ++ "C".data)))))))))).2
      = [("image_1.png".data, "http://u1".data), ("image_2.png".data, "http://u2".data)]) := by
  refine ⟨by decide, ?_⟩
  have h := c5_image_extraction ctPng "A".data "B".data "C".data "E".data
    "http://u1".data "x".data "http://u2".data "y".data
    (by decide) (by decide) (by decide) (by decide) (by decide)
    (by decide) (by decide) (by decide) (by decide) (by decide) (by decide)
    (by decide) (by decide) (by decide) (by decide) (by decide)
    (by decide) (by decide) (by decide) (by decide) (by decide) (by decide)
    (by decide) (by decide) (by decide) (by decide)
    (by decide)
  rw [h.1]
  decide

end PLTools
